import Mathlib

/-
Verification of the bevi runtime (scheduler + event bus) against its
natural-language specification.

The development shallowly embeds the Go sources:
  * the per-type event store (entry lifecycle, double buffering, reader
    iteration, advance, completeNoReader) from the event package,
  * the periodic execution gate (System.ShouldRun / System.MarkRun),
  * access descriptors, bitsets and conflict detection
    (AccessMeta.PrepareSets / AccessMeta.Conflicts),
  * the scheduler (topologicalSort, computeBatches, Build, runSystem).

Go machine integers are modelled as Int (no arithmetic here approaches
64-bit bounds except bitset words, which are modelled as arbitrary
precision bit strings: a Go []uint64 word array is exactly the radix
2^64 representation of a natural number, and the prefix-wise
anyIntersect test is exactly a nonzero bitwise and).
-/

namespace Bevi

/-! ## Event entry lifecycle

Model of the entry type of the event package (unnamed/part_003 and the
variant embedded in internal/event/bus.go).  An entry tracks
  * val: the payload,
  * pending: atomic.Int32 counter of registered readers (Go int32; the
    values reached here are tiny, so Int is a faithful model),
  * cancelled: atomic.Bool,
  * completed: bit 0 of the atomic state word (set exactly by a
    successful CompareAndSwap(0, 1)),
  * signals: the number of times the done signal was delivered, i.e.
    close(e.done) was called or the shared pre-closed channel was
    installed.  The Go code performs exactly one such delivery inside
    each successful CAS, so counting deliveries counts channel closes.
-/

structure Entry (T : Type) where
  val : T
  pending : Int
  cancelled : Bool
  completed : Bool
  signals : Nat
  deriving Repr, DecidableEq

namespace Entry

/-- Model of newEntry (store.newEntry with wantDone=false, the only call
site reachable from Emit/EmitMany/EmitResult): all lifecycle state reset. -/
def fresh {T : Type} (v : T) : Entry T :=
  { val := v, pending := 0, cancelled := false, completed := false, signals := 0 }

/-- Model of the body of every successful CAS(0,1) in the event package:
mark completed and deliver the done signal once (close the channel when
it exists, otherwise install the shared pre-closed channel). -/
def closeOnce {T : Type} (e : Entry T) : Entry T :=
  if e.completed then e
  else { e with completed := true, signals := e.signals + 1 }

/-- Model of entry.decAndMaybeClose (unnamed/part_003 lines 59-74):
decrement pending; when the decremented value is exactly zero, attempt
the 0 to 1 state transition and signal completion. -/
def decAndMaybeClose {T : Type} (e : Entry T) : Entry T :=
  let e2 := { e with pending := e.pending - 1 }
  if e2.pending = 0 then e2.closeOnce else e2

/-- Model of entry.dec of the internal/event variant: decrement only,
completion is deferred to advance. -/
def dec {T : Type} (e : Entry T) : Entry T :=
  { e with pending := e.pending - 1 }

/-- Model of entry.markCancelled / Reader.Cancel. -/
def markCancelled {T : Type} (e : Entry T) : Entry T :=
  { e with cancelled := true }

/-- Model of the per-entry step performed by store.completeNoReader
(unnamed/part_003 lines 210-228): entries with no pending readers are
completed via the CAS. -/
def completeNoReaderStep {T : Type} (e : Entry T) : Entry T :=
  if e.pending = 0 then e.closeOnce else e

/-- Model of the defensive finalisation performed on every entry of the
old read buffer by store.advance (unnamed/part_003 lines 183-197). -/
def advanceFinalize {T : Type} (e : Entry T) : Entry T :=
  e.closeOnce

/-- Model of a reader registering interest (ent.pending.Add(1)). -/
def reg {T : Type} (e : Entry T) : Entry T :=
  { e with pending := e.pending + 1 }

end Entry

/-- Operations that touch a single entry lifecycle, in any interleaving:
reader decrements, cancellation, the advance finaliser and the
completeNoReader sweep. -/
inductive EntryOp : Type
  | decClose
  | dec
  | register
  | cancel
  | advanceFin
  | completeNoReader
  deriving Repr, DecidableEq

/-- Apply one lifecycle operation to an entry state. -/
def EntryOp.apply {T : Type} (e : Entry T) : EntryOp → Entry T
  | .decClose => e.decAndMaybeClose
  | .dec => e.dec
  | .register => e.reg
  | .cancel => e.markCancelled
  | .advanceFin => e.advanceFinalize
  | .completeNoReader => e.completeNoReaderStep

/-- Run a sequence of lifecycle operations. -/
def runEntryOps {T : Type} (e : Entry T) (ops : List EntryOp) : Entry T :=
  ops.foldl EntryOp.apply e

lemma closeOnce_completed {T : Type} (e : Entry T) : e.closeOnce.completed := by
  unfold Entry.closeOnce
  by_cases h : e.completed <;> simp [h]

lemma closeOnce_signals {T : Type} (e : Entry T) :
    e.closeOnce.signals = if e.completed then e.signals else e.signals + 1 := by
  unfold Entry.closeOnce
  by_cases h : e.completed <;> simp [h]

/-- Completion and the signal count move together: the done signal has
been delivered exactly as many times as completed transitions happened,
and completed never reverts. -/
def SigInv {T : Type} (e : Entry T) : Prop :=
  e.signals = if e.completed then 1 else 0

lemma sigInv_apply {T : Type} (e : Entry T) (op : EntryOp) (h : SigInv e) :
    SigInv (op.apply e) := by
  unfold SigInv at h ⊢
  cases op <;>
    simp only [EntryOp.apply, Entry.decAndMaybeClose, Entry.dec, Entry.reg,
      Entry.markCancelled, Entry.advanceFinalize, Entry.completeNoReaderStep,
      Entry.closeOnce] <;>
    by_cases hc : e.completed <;>
    simp_all <;> split <;> simp_all

lemma sigInv_run {T : Type} (e : Entry T) (ops : List EntryOp) (h : SigInv e) :
    SigInv (runEntryOps e ops) := by
  induction ops generalizing e with
  | nil => exact h
  | cons op rest ih => exact ih _ (sigInv_apply e op h)

lemma completed_mono_apply {T : Type} (e : Entry T) (op : EntryOp)
    (h : e.completed) : (op.apply e).completed := by
  cases op <;>
    simp only [EntryOp.apply, Entry.decAndMaybeClose, Entry.dec, Entry.reg,
      Entry.markCancelled, Entry.advanceFinalize, Entry.completeNoReaderStep,
      Entry.closeOnce] <;>
    first
      | exact h
      | (split <;> simp_all)

lemma completed_mono_run {T : Type} (e : Entry T) (ops : List EntryOp)
    (h : e.completed) : (runEntryOps e ops).completed := by
  induction ops generalizing e with
  | nil => exact h
  | cons op rest ih => exact ih _ (completed_mono_apply e op h)

/-- States of an entry along a run of lifecycle operations. -/
def entryTrace {T : Type} (e : Entry T) : List EntryOp → List (Entry T)
  | [] => [e]
  | op :: rest => e :: entryTrace (op.apply e) rest

/-- C5 (at-most-one close).  Over any sequence of reader decrements,
advance finalisations and completeNoReader sweeps (plus registrations and
cancellations) starting from a fresh entry: the done signal is delivered
at most once, it is delivered exactly when completed holds, and the
completed flag never goes back from true to false along the trace (hence
it transitions false to true at most once). -/
theorem C5_entry_at_most_one_close {T : Type} (v : T) (ops : List EntryOp) :
    (runEntryOps (Entry.fresh v) ops).signals ≤ 1 ∧
    ((runEntryOps (Entry.fresh v) ops).completed ↔
      (runEntryOps (Entry.fresh v) ops).signals = 1) ∧
    (∀ e : Entry T, ∀ tail : List EntryOp,
      e.completed → (runEntryOps e tail).completed) := by
  have h0 : SigInv (Entry.fresh v) := by simp [SigInv, Entry.fresh]
  have h := sigInv_run (Entry.fresh v) ops h0
  unfold SigInv at h
  refine ⟨?_, ?_, fun e tail he => completed_mono_run e tail he⟩
  · rw [h]; split <;> simp
  · rw [h]; by_cases hc : (runEntryOps (Entry.fresh v) ops).completed <;> simp [hc]

/-- Witness for C5 at a concrete run: one reader registers and
decrements, then completeNoReader and the advance finaliser race over an
already-completed entry; the monotonicity conjunct is applied at a
completed entry. -/
theorem C5_entry_at_most_one_close_witness :
    (runEntryOps (Entry.fresh (0 : Nat))
      [EntryOp.register, EntryOp.decClose, EntryOp.completeNoReader,
        EntryOp.advanceFin]).signals ≤ 1 ∧
    (runEntryOps
      ({ val := (0 : Nat), pending := 0, cancelled := false, completed := true,
         signals := 1 } : Entry Nat) [EntryOp.dec, EntryOp.decClose]).completed := by
  have h := C5_entry_at_most_one_close (T := Nat) 0
    [EntryOp.register, EntryOp.decClose, EntryOp.completeNoReader,
      EntryOp.advanceFin]
  exact ⟨h.1, h.2.2 _ [EntryOp.dec, EntryOp.decClose] rfl⟩

/-! ## Event store (double buffering)

Model of the per-type store (unnamed/part_003).  The store keeps two
entry buffers; writers append to writeEnt, readers iterate readEnt.
advance swaps the buffers, then finalises every entry of the old read
buffer (the closeOnce CAS) and recycles it through the pool, leaving the
new write buffer empty; the recycled entries leave the store, so the
observable store state after advance is exactly
(readEnt := old writeEnt, writeEnt := []). -/

structure Store (T : Type) where
  readEnt : List (Entry T)
  writeEnt : List (Entry T)
  deriving Repr, DecidableEq

namespace Store

/-- Model of store.appendEntry: push a fresh entry onto the write buffer. -/
def appendEntry {T : Type} (s : Store T) (v : T) : Store T :=
  { s with writeEnt := s.writeEnt ++ [Entry.fresh v] }

/-- Model of store.appendMany: push fresh entries for all values, in order. -/
def appendMany {T : Type} (s : Store T) (vs : List T) : Store T :=
  { s with writeEnt := s.writeEnt ++ vs.map Entry.fresh }

/-- Model of store.advance: swap the buffers; the old read entries are
defensively finalised and returned to the pool (they leave the store),
and the new write buffer is cleared. -/
def advance {T : Type} (s : Store T) : Store T :=
  { readEnt := s.writeEnt, writeEnt := [] }

/-- Model of store.drain: copy out the read-buffer values without
clearing the buffer. -/
def drain {T : Type} (s : Store T) : List T :=
  s.readEnt.map Entry.val

/-- Model of Reader.Iter (unnamed/part_001 lines 154-184) run to
completion by a single reader: the registration pass registers exactly
the entries that are not already completed, the iteration pass yields
each registered value in order and decrements it via decAndMaybeClose.
Returns the yielded values together with the store after the pass. -/
def iterB {T : Type} (s : Store T) : List T × Store T :=
  ((s.readEnt.filter (fun e => !e.completed)).map Entry.val,
   { s with
      readEnt := s.readEnt.map
        (fun e => if e.completed then e else e.reg.decAndMaybeClose) })

/-- Values a single full reader iteration observes. -/
def iterYields {T : Type} (s : Store T) : List T :=
  (s.iterB).1

end Store

/-- Writer-side emissions: Emit appends one value, EmitMany appends a
batch in one critical section. -/
inductive EmitOp (T : Type) : Type
  | emit (v : T)
  | emitMany (vs : List T)

/-- Values carried by an emission. -/
def EmitOp.vals {T : Type} : EmitOp T → List T
  | .emit v => [v]
  | .emitMany vs => vs

/-- Apply one emission to the store (Writer.Emit / Writer.EmitMany via
store.appendEntry / store.appendMany). -/
def EmitOp.apply {T : Type} (s : Store T) : EmitOp T → Store T
  | .emit v => s.appendEntry v
  | .emitMany vs => s.appendMany vs

/-- Run a sequence of emissions. -/
def applyEmits {T : Type} (s : Store T) (es : List (EmitOp T)) : Store T :=
  es.foldl EmitOp.apply s

/-- All values appended by a sequence of emissions, in append order. -/
def emitValues {T : Type} (es : List (EmitOp T)) : List T :=
  (es.map EmitOp.vals).flatten

lemma readEnt_applyEmits {T : Type} (s : Store T) (es : List (EmitOp T)) :
    (applyEmits s es).readEnt = s.readEnt := by
  induction es generalizing s with
  | nil => rfl
  | cons e rest ih =>
    cases e <;> simp [applyEmits, List.foldl, EmitOp.apply, Store.appendEntry,
      Store.appendMany] at * <;> apply ih

lemma writeEnt_applyEmits {T : Type} (s : Store T) (es : List (EmitOp T)) :
    (applyEmits s es).writeEnt = s.writeEnt ++ (emitValues es).map Entry.fresh := by
  induction es generalizing s with
  | nil => simp [applyEmits, emitValues]
  | cons e rest ih =>
    cases e with
    | emit v =>
      simp [applyEmits, List.foldl, EmitOp.apply, Store.appendEntry] at *
      rw [ih]
      simp [emitValues, EmitOp.vals]
    | emitMany vs =>
      simp [applyEmits, List.foldl, EmitOp.apply, Store.appendMany] at *
      rw [ih]
      simp [emitValues, EmitOp.vals]

lemma iterYields_fresh {T : Type} (vs : List T) :
    ((vs.map Entry.fresh).filter (fun e => !e.completed)).map Entry.val = vs := by
  induction vs with
  | nil => rfl
  | cons v rest ih => simp [Entry.fresh, List.filter, ih]

/-- C4 (frame isolation).  Starting from a store whose write buffer was
just cleared by an advance: emissions do not change what a reader
iteration observes; after exactly one advance a single full reader
iteration yields exactly the values appended since the previous advance,
in append order; values appended after that advance stay invisible until
the next advance, at which point exactly they are observed. -/
theorem C4_frame_isolation {T : Type} (s : Store T)
    (es es2 : List (EmitOp T)) (h : s.writeEnt = []) :
    Store.iterYields (applyEmits s es) = Store.iterYields s ∧
    Store.iterYields (Store.advance (applyEmits s es)) = emitValues es ∧
    Store.iterYields (applyEmits (Store.advance (applyEmits s es)) es2) =
      emitValues es ∧
    Store.iterYields
        (Store.advance (applyEmits (Store.advance (applyEmits s es)) es2)) =
      emitValues es2 := by
  constructor
  · simp [Store.iterYields, Store.iterB, readEnt_applyEmits]
  refine ⟨?_, ?_, ?_⟩
  · simp [Store.iterYields, Store.iterB, Store.advance, writeEnt_applyEmits,
      h, iterYields_fresh]
  · simp [Store.iterYields, Store.iterB, readEnt_applyEmits, Store.advance,
      writeEnt_applyEmits, h, iterYields_fresh]
  · simp [Store.iterYields, Store.iterB, Store.advance, writeEnt_applyEmits,
      readEnt_applyEmits, h, iterYields_fresh]

/-- Witness for C4 at a concrete store and emission sequences. -/
theorem C4_frame_isolation_witness :
    (Store.mk (T := Nat) [] []).writeEnt = [] ∧
    Store.iterYields
        (Store.advance (applyEmits (Store.mk (T := Nat) [] [])
          [EmitOp.emit 1, EmitOp.emitMany [2, 3]])) = [1, 2, 3] :=
  ⟨rfl,
    (C4_frame_isolation (Store.mk [] []) [EmitOp.emit 1, EmitOp.emitMany [2, 3]]
      [] rfl).2.1.trans (by decide)⟩

/-! ## Reader iteration and the pending counter

Accounting model for C9.  A reader iteration touches only the pending
counters of the snapshot entries; we track the counters as a list of
integers indexed by snapshot position, and the iteration as the exact
sequence of increments (registration pass) and decrements it performs.
The consumer is modelled by a function saying, for each snapshot index,
whether its callback returns true (continue) at that index. -/

/-- Pending counters after one increment (true) or decrement (false) at
an index. -/
def pendStep (ps : List Int) (op : Nat × Bool) : List Int :=
  ps.set op.1 (ps.getD op.1 0 + (if op.2 then 1 else -1))

/-- Run a sequence of pending-counter operations. -/
def runPend (ps : List Int) (ops : List (Nat × Bool)) : List Int :=
  ops.foldl pendStep ps

/-- Indices the registration pass registers: exactly the snapshot
positions whose entry is not already completed (cs is the list of
completed flags at registration time). -/
def regIdx (cs : List Bool) : List Nat :=
  (List.range cs.length).filter (fun i => !(cs.getD i true))

/-- Order of decrements performed by Reader.Iter (unnamed/part_001 lines
168-183) over the registered entries: each processed entry is
decremented right after its yield; when the consumer stops, the
remaining registered entries are decremented in order. -/
def decOrderB (cont : Nat → Bool) : List Nat → List Nat
  | [] => []
  | i :: rest => if cont i then i :: decOrderB cont rest else i :: rest

/-- Order of decrements performed by Reader.ForEach (unnamed/part_001
lines 47-81, the internal/event variant) over the whole snapshot: every
entry is decremented at the end of its loop iteration; on an early stop
at a not-completed entry, that entry and all remaining snapshot entries
are decremented. -/
def decOrderA (cs : List Bool) (cont : Nat → Bool) : List Nat → List Nat
  | [] => []
  | i :: rest =>
      if !(cs.getD i true) && !(cont i) then i :: rest
      else i :: decOrderA cs cont rest

/-- Increment operations of the registration pass. -/
def incOps (regs : List Nat) : List (Nat × Bool) := regs.map (fun i => (i, true))

/-- Decrement operations of the processing pass. -/
def decOps (ds : List Nat) : List (Nat × Bool) := ds.map (fun i => (i, false))

lemma decOrderB_eq (cont : Nat → Bool) (regs : List Nat) :
    decOrderB cont regs = regs := by
  induction regs with
  | nil => rfl
  | cons i rest ih => by_cases h : cont i <;> simp [decOrderB, h, ih]

lemma decOrderA_eq (cs : List Bool) (cont : Nat → Bool) (idxs : List Nat) :
    decOrderA cs cont idxs = idxs := by
  induction idxs with
  | nil => rfl
  | cons i rest ih =>
    by_cases h : !(cs.getD i true) && !(cont i) <;> simp [decOrderA, h, ih]

lemma listGetD_set_ne {α : Type} (l : List α) (d v : α) {i j : Nat} (h : i ≠ j) :
    (l.set i v).getD j d = l.getD j d := by
  induction l generalizing i j with
  | nil => simp
  | cons a rest ih =>
    cases i with
    | zero => cases j with
      | zero => exact absurd rfl h
      | succ j => simp [List.getD_cons_succ]
    | succ i => cases j with
      | zero => simp [List.getD_cons_zero]
      | succ j =>
        simp only [List.set_cons_succ, List.getD_cons_succ]
        exact ih fun hc => h (by omega)

lemma listGetD_set_self {α : Type} (l : List α) (d v : α) {i : Nat}
    (h : i < l.length) : (l.set i v).getD i d = v := by
  induction l generalizing i with
  | nil => simp at h
  | cons a rest ih =>
    cases i with
    | zero => simp [List.getD_cons_zero]
    | succ i =>
      simp only [List.set_cons_succ, List.getD_cons_succ]
      exact ih (by simpa using h)

lemma listSet_getD_self {α : Type} (l : List α) (d : α) {i : Nat}
    (h : i < l.length) : l.set i (l.getD i d) = l := by
  induction l generalizing i with
  | nil => simp at h
  | cons a rest ih =>
    cases i with
    | zero => simp [List.getD_cons_zero]
    | succ i =>
      simp only [List.set_cons_succ, List.getD_cons_succ, List.cons.injEq,
        true_and]
      exact ih (by simpa using h)

lemma listSet_of_ge {α : Type} (l : List α) (v : α) {i : Nat}
    (h : l.length ≤ i) : l.set i v = l := by
  induction l generalizing i with
  | nil => simp
  | cons a rest ih =>
    cases i with
    | zero => simp at h
    | succ i =>
      simp only [List.set_cons_succ, List.cons.injEq, true_and]
      exact ih (by simpa using h)

lemma listGetD_mem {α : Type} (l : List α) (d : α) {i : Nat}
    (h : i < l.length) : l.getD i d ∈ l := by
  induction l generalizing i with
  | nil => simp at h
  | cons a rest ih =>
    cases i with
    | zero => simp [List.getD_cons_zero]
    | succ i =>
      simp only [List.getD_cons_succ]
      exact List.mem_cons_of_mem a (ih (by simpa using h))

lemma listGetD_of_ge {α : Type} (l : List α) (d : α) {i : Nat}
    (h : l.length ≤ i) : l.getD i d = d := by
  induction l generalizing i with
  | nil => simp
  | cons a rest ih =>
    cases i with
    | zero => simp at h
    | succ i =>
      simp only [List.getD_cons_succ]
      exact ih (by simpa using h)

/-- Pending counters after one registration at index i. -/
def bump1 (ps : List Int) (i : Nat) : List Int := ps.set i (ps.getD i 0 + 1)

/-- Pending counters after registering a list of indices. -/
def bumpAll (ps : List Int) (regs : List Nat) : List Int := regs.foldl bump1 ps

lemma runPend_incOps (ps : List Int) (regs : List Nat) :
    runPend ps (incOps regs) = bumpAll ps regs := by
  induction regs generalizing ps with
  | nil => rfl
  | cons i rest ih =>
    simp only [incOps, List.map, runPend, List.foldl, bumpAll] at *
    rw [show pendStep ps (i, true) = bump1 ps i by simp [pendStep, bump1]]
    exact ih (bump1 ps i)

lemma bump1_comm (ps : List Int) (i j : Nat) (h : i ≠ j) :
    bump1 (bump1 ps i) j = bump1 (bump1 ps j) i := by
  unfold bump1
  rw [listGetD_set_ne ps 0 _ h, listGetD_set_ne ps 0 _ h.symm,
    List.set_comm _ _ _ h]

lemma bumpAll_cons_notMem (ps : List Int) (i : Nat) (regs : List Nat)
    (h : i ∉ regs) : bumpAll ps (i :: regs) = bump1 (bumpAll ps regs) i := by
  induction regs generalizing ps with
  | nil => rfl
  | cons j rest ih =>
    have hij : i ≠ j := fun hc => h (hc ▸ List.mem_cons_self j rest)
    have hr : i ∉ rest := fun hc => h (List.mem_cons_of_mem j hc)
    show bumpAll (bump1 (bump1 ps i) j) rest = bump1 (bumpAll (bump1 ps j) rest) i
    rw [bump1_comm ps i j hij]
    exact ih (bump1 ps j) hr

lemma pendStep_dec_bump1 (ps : List Int) (i : Nat) :
    pendStep (bump1 ps i) (i, false) = ps := by
  unfold pendStep bump1
  by_cases h : i < ps.length
  · rw [listGetD_set_self ps 0 _ h]
    simp only [if_neg (by simp : ¬ false = true)]
    rw [show ps.getD i 0 + 1 + -1 = ps.getD i 0 by ring, List.set_set]
    exact listSet_getD_self ps 0 h
  · have hg : ps.set i (ps.getD i 0 + 1) = ps :=
      listSet_of_ge ps _ (Nat.le_of_not_lt h)
    rw [hg]
    exact listSet_of_ge ps _ (Nat.le_of_not_lt h)

/-- Decrementing the registered indices in order unwinds the
registrations suffix by suffix. -/
lemma runPend_dec_phase (ps : List Int) (regs : List Nat) (hnd : regs.Nodup)
    (j : Nat) :
    runPend (bumpAll ps regs) ((decOps regs).take j) = bumpAll ps (regs.drop j) := by
  induction regs generalizing ps j with
  | nil => simp [runPend, decOps, bumpAll]
  | cons i rest ih =>
    cases j with
    | zero => simp [runPend]
    | succ j =>
      have hi : i ∉ rest := (List.nodup_cons.mp hnd).1
      have hnd2 : rest.Nodup := (List.nodup_cons.mp hnd).2
      simp only [decOps, List.map, List.take, runPend, List.foldl, List.drop]
      rw [show (bumpAll ps (i :: rest)) = bump1 (bumpAll ps rest) i from
        bumpAll_cons_notMem ps i rest hi]
      rw [pendStep_dec_bump1 (bumpAll ps rest) i]
      exact ih ps hnd2 j

lemma bumpAll_nonneg (ps : List Int) (regs : List Nat)
    (h : ∀ x ∈ ps, 0 ≤ x) : ∀ x ∈ bumpAll ps regs, 0 ≤ x := by
  induction regs generalizing ps with
  | nil => exact h
  | cons i rest ih =>
    refine ih (bump1 ps i) ?_
    intro x hx
    rcases List.mem_or_eq_of_mem_set hx with hmem | hval
    · exact h x hmem
    · subst hval
      have : 0 ≤ ps.getD i 0 := by
        by_cases hl : i < ps.length
        · exact h _ (listGetD_mem ps 0 hl)
        · rw [listGetD_of_ge ps 0 (Nat.le_of_not_lt hl)]
      omega

lemma runPend_take_nonneg (ps : List Int) (regs : List Nat)
    (hnd : regs.Nodup) (h : ∀ x ∈ ps, 0 ≤ x) (k : Nat) :
    ∀ x ∈ runPend ps ((incOps regs ++ decOps regs).take k), 0 ≤ x := by
  by_cases hk : k ≤ regs.length
  · rw [List.take_append_of_le_length (by simpa [incOps] using hk)]
    have htk : (incOps regs).take k = incOps (regs.take k) := by
      simp [incOps, List.map_take]
    rw [htk, runPend_incOps]
    exact bumpAll_nonneg ps (regs.take k) h
  · push_neg at hk
    have hlen : (incOps regs).length = regs.length := by simp [incOps]
    rw [List.take_append_eq_append_take]
    have h1 : (incOps regs).take k = incOps regs :=
      List.take_of_length_le (by omega)
    rw [h1]
    have hsplit : runPend ps (incOps regs ++
        (decOps regs).take (k - (incOps regs).length)) =
        runPend (runPend ps (incOps regs)) ((decOps regs).take (k - (incOps regs).length)) := by
      simp [runPend, List.foldl_append]
    rw [hsplit, runPend_incOps, runPend_dec_phase ps regs hnd]
    exact bumpAll_nonneg ps _ h

lemma regIdx_nodup (cs : List Bool) : (regIdx cs).Nodup :=
  (List.nodup_range cs.length).filter _

lemma regIdx_all_not_completed (cs : List Bool) :
    ∀ i ∈ regIdx cs, cs.getD i true = false := by
  intro i hi
  have := List.of_mem_filter hi
  simpa using this

/-- Exact operation sequence of one Reader.Iter pass with consumer cont. -/
def iterOpsB (cs : List Bool) (cont : Nat → Bool) : List (Nat × Bool) :=
  incOps (regIdx cs) ++ decOps (decOrderB cont (regIdx cs))

/-- Exact operation sequence of one Reader.ForEach pass with consumer
cont (internal/event variant: the decrement pass covers the whole
snapshot, completed or not). -/
def forEachOpsA (cs : List Bool) (cont : Nat → Bool) : List (Nat × Bool) :=
  incOps (regIdx cs) ++ decOps (decOrderA cs cont (List.range cs.length))

/-- Store operations of the internal/event variant (the one whose reader
is ForEach and whose entry decrement never completes: completion happens
only inside advance, on the entries leaving the store). -/
inductive StoreOpA (T : Type) : Type
  | append (v : T)
  | appendMany (vs : List T)
  | drain
  | forEach
  | advance

/-- Net store effect of one ForEach pass in the internal/event variant:
entries that are not completed are registered and decremented once;
completed entries are only decremented (the unconditional ent.dec() at
the end of the loop body).  The net effect does not depend on where the
consumer stops. -/
def forEachStoreA {T : Type} (s : Store T) : Store T :=
  { s with
      readEnt := s.readEnt.map (fun e => if e.completed then e.dec else e.reg.dec) }

/-- Apply one internal/event store operation. -/
def StoreOpA.apply {T : Type} (s : Store T) : StoreOpA T → Store T
  | .append v => s.appendEntry v
  | .appendMany vs => s.appendMany vs
  | .drain => s
  | .forEach => forEachStoreA s
  | .advance => s.advance

/-- Run a sequence of internal/event store operations. -/
def applyOpsA {T : Type} (s : Store T) (ops : List (StoreOpA T)) : Store T :=
  ops.foldl StoreOpA.apply s

/-- Reachable-state invariant of the internal/event store: between
reader passes every entry of both buffers is uncompleted with a zero
pending counter. -/
def InvA {T : Type} (s : Store T) : Prop :=
  ∀ e ∈ s.readEnt ++ s.writeEnt, e.completed = false ∧ e.pending = 0

lemma invA_apply {T : Type} (s : Store T) (op : StoreOpA T) (h : InvA s) :
    InvA (op.apply s) := by
  cases op with
  | append v =>
    intro e he
    simp only [StoreOpA.apply, Store.appendEntry, List.append_assoc,
      List.mem_append, List.mem_singleton] at he
    rcases he with he | he | he
    · exact h e (List.mem_append_left _ he)
    · exact h e (List.mem_append_right _ he)
    · subst he; exact ⟨rfl, rfl⟩
  | appendMany vs =>
    intro e he
    simp only [StoreOpA.apply, Store.appendMany, List.append_assoc,
      List.mem_append] at he
    rcases he with he | he | he
    · exact h e (List.mem_append_left _ he)
    · exact h e (List.mem_append_right _ he)
    · rcases List.mem_map.mp he with ⟨v, _, rfl⟩
      exact ⟨rfl, rfl⟩
  | drain => exact h
  | forEach =>
    intro e he
    simp only [StoreOpA.apply, forEachStoreA, List.mem_append, List.mem_map] at he
    rcases he with ⟨a, ha, rfl⟩ | he
    · have := h a (List.mem_append_left _ ha)
      simp [this.1, Entry.reg, Entry.dec, this.2]
    · exact h e (List.mem_append_right _ he)
  | advance =>
    intro e he
    simp only [StoreOpA.apply, Store.advance, List.append_nil] at he
    exact h e (List.mem_append_right _ he)

lemma invA_run {T : Type} (s : Store T) (ops : List (StoreOpA T)) (h : InvA s) :
    InvA (applyOpsA s ops) := by
  induction ops generalizing s with
  | nil => exact h
  | cons op rest ih => exact ih _ (invA_apply s op h)

lemma runPend_full (ps : List Int) (regs : List Nat) (hnd : regs.Nodup) :
    runPend ps (incOps regs ++ decOps regs) = ps := by
  have h : runPend ps (incOps regs ++ decOps regs) =
      runPend (runPend ps (incOps regs)) (decOps regs) := by
    simp [runPend, List.foldl_append]
  rw [h, runPend_incOps]
  have := runPend_dec_phase ps regs hnd regs.length
  rwa [List.take_of_length_le (by simp [decOps]), List.drop_of_length_le (by simp)]
    at this

lemma regIdx_all_false (cs : List Bool) (h : ∀ b ∈ cs, b = false) :
    regIdx cs = List.range cs.length := by
  unfold regIdx
  rw [List.filter_eq_self]
  intro i hi
  have hlt : i < cs.length := List.mem_range.mp hi
  have := h _ (listGetD_mem cs true hlt)
  simp only [List.getD, List.get?_eq_getElem?] at this
  simp [this]

/-- C9 (pending-reader accounting).  For a snapshot with completed flags
cs and pending counters ps, and for every consumer (including one that
stops early): Reader.Iter registers exactly the not-yet-completed
entries and decrements exactly the registered entries, once each, in
order, never an unregistered one; a full pass restores every counter and
no counter ever becomes negative at any intermediate point.  For
Reader.ForEach of the internal/event variant the decrement pass covers
the whole snapshot, but the reachable states of that variant (an
invariant preserved by every store operation, last conjunct) have no
completed entry in the buffers, so there the decrement list again equals
the registered list, with the same balance and non-negativity. -/
theorem C9_pending_never_negative {T : Type} (s : Store T) (cont : Nat → Bool) :
    (decOrderB cont (regIdx (s.readEnt.map Entry.completed)) =
      regIdx (s.readEnt.map Entry.completed)) ∧
    (∀ i ∈ regIdx (s.readEnt.map Entry.completed),
      (s.readEnt.map Entry.completed).getD i true = false) ∧
    (runPend (s.readEnt.map Entry.pending)
        (iterOpsB (s.readEnt.map Entry.completed) cont) =
      s.readEnt.map Entry.pending) ∧
    ((∀ x ∈ s.readEnt.map Entry.pending, 0 ≤ x) → ∀ k,
      ∀ x ∈ runPend (s.readEnt.map Entry.pending)
        ((iterOpsB (s.readEnt.map Entry.completed) cont).take k), 0 ≤ x) ∧
    ((∀ e ∈ s.readEnt, e.completed = false) →
      regIdx (s.readEnt.map Entry.completed) =
        List.range (s.readEnt.map Entry.completed).length ∧
      decOrderA (s.readEnt.map Entry.completed) cont
          (List.range (s.readEnt.map Entry.completed).length) =
        List.range (s.readEnt.map Entry.completed).length ∧
      runPend (s.readEnt.map Entry.pending)
          (forEachOpsA (s.readEnt.map Entry.completed) cont) =
        s.readEnt.map Entry.pending ∧
      ((∀ x ∈ s.readEnt.map Entry.pending, 0 ≤ x) → ∀ k,
        ∀ x ∈ runPend (s.readEnt.map Entry.pending)
          ((forEachOpsA (s.readEnt.map Entry.completed) cont).take k), 0 ≤ x)) ∧
    (∀ ops : List (StoreOpA T), InvA s → InvA (applyOpsA s ops)) := by
  set cs := s.readEnt.map Entry.completed with hcs
  set ps := s.readEnt.map Entry.pending with hps
  refine ⟨decOrderB_eq cont _, regIdx_all_not_completed cs, ?_, ?_, ?_,
    fun ops h => invA_run s ops h⟩
  · unfold iterOpsB
    rw [decOrderB_eq]
    exact runPend_full ps (regIdx cs) (regIdx_nodup cs)
  · intro hpos k
    unfold iterOpsB
    rw [decOrderB_eq]
    exact runPend_take_nonneg ps (regIdx cs) (regIdx_nodup cs) hpos k
  · intro hall
    have hcsf : ∀ b ∈ cs, b = false := by
      intro b hb
      rcases List.mem_map.mp hb with ⟨e, he, rfl⟩
      exact hall e he
    have hreg : regIdx cs = List.range cs.length := regIdx_all_false cs hcsf
    refine ⟨hreg, decOrderA_eq cs cont _, ?_, ?_⟩
    · unfold forEachOpsA
      rw [decOrderA_eq, ← hreg]
      exact runPend_full ps (regIdx cs) (regIdx_nodup cs)
    · intro hpos k
      unfold forEachOpsA
      rw [decOrderA_eq, ← hreg]
      exact runPend_take_nonneg ps (regIdx cs) (regIdx_nodup cs) hpos k

/-- Witness for C9 at a concrete two-entry snapshot with an
early-stopping consumer. -/
theorem C9_pending_never_negative_witness :
    (∀ x ∈ ((Store.mk (T := Nat) [Entry.fresh 7, Entry.fresh 8]
      []).readEnt.map Entry.pending), 0 ≤ x) ∧
    (∀ e ∈ (Store.mk (T := Nat) [Entry.fresh 7, Entry.fresh 8] []).readEnt,
      e.completed = false) ∧
    InvA (Store.mk (T := Nat) [Entry.fresh 7, Entry.fresh 8] []) ∧
    runPend [0, 0] (iterOpsB [false, false] (fun _ => false)) = [0, 0] ∧
    (∀ x ∈ runPend [0, 0] ((iterOpsB [false, false] (fun _ => false)).take 3),
      0 ≤ x) := by
  have h := C9_pending_never_negative
    (Store.mk (T := Nat) [Entry.fresh 7, Entry.fresh 8] []) (fun _ => false)
  refine ⟨by decide, by decide, ?_, ?_, ?_⟩
  · have := h.2.2.2.2.2 [] (by unfold InvA; decide)
    simpa [applyOpsA] using this
  · have := h.2.2.1
    simpa [Entry.fresh] using this
  · have := h.2.2.2.1 (by decide) 3
    simpa [Entry.fresh] using this

/-! ## Writer and EventResult (unnamed/part_002)

A Writer holds a possibly nil store pointer; the zero value has a nil
store.  An EventResult holds a possibly nil entry pointer; the zero
value has a nil entry.  The blocking select of Wait / WaitCancelled is
modelled by a wake oracle saying which of the select arms fired; the nil
fast paths never reach the select. -/

structure WriterM (T : Type) where
  store : Option (Store T)

structure EventResultM (T : Type) where
  ent : Option (Entry T)

/-- Reason the blocking wait of Wait / WaitCancelled woke up. -/
inductive WakeReason : Type
  | doneClosed
  | ctxDone
  deriving Repr, DecidableEq

namespace WriterM

/-- Model of Writer.Emit: no-op on a nil store, otherwise append. -/
def emit {T : Type} (w : WriterM T) (v : T) : Option (Store T) :=
  match w.store with
  | none => none
  | some s => some (s.appendEntry v)

/-- Model of Writer.EmitMany: no-op on a nil store or empty slice. -/
def emitMany {T : Type} (w : WriterM T) (vs : List T) : Option (Store T) :=
  match w.store with
  | none => none
  | some s => if vs.length = 0 then some s else some (s.appendMany vs)

/-- Model of Writer.EmitResult: on a nil store return the zero
EventResult, otherwise append and hand back the new entry. -/
def emitResult {T : Type} (w : WriterM T) (v : T) :
    EventResultM T × Option (Store T) :=
  match w.store with
  | none => (⟨none⟩, none)
  | some s => (⟨some (Entry.fresh v)⟩, some (s.appendEntry v))

end WriterM

namespace EventResultM

/-- Model of EventResult.Valid. -/
def valid {T : Type} (r : EventResultM T) : Bool :=
  r.ent.isSome

/-- Model of EventResult.Cancelled. -/
def cancelledNow {T : Type} (r : EventResultM T) : Bool :=
  match r.ent with
  | none => false
  | some e => e.cancelled

/-- Model of EventResult.Wait: nil entry returns false before any
blocking; completed entries return cancelled; otherwise the value read
after the select is the entry's cancellation flag for either arm. -/
def wait {T : Type} (r : EventResultM T) (wake : WakeReason) : Bool :=
  match r.ent with
  | none => false
  | some e =>
    if e.completed then e.cancelled
    else match wake with
      | .doneClosed => e.cancelled
      | .ctxDone => e.cancelled

/-- Model of EventResult.WaitCancelled: nil entry returns false before
any spinning or blocking; otherwise every exit returns the cancellation
flag (true when it caused the exit). -/
def waitCancelled {T : Type} (r : EventResultM T) (wake : WakeReason) : Bool :=
  match r.ent with
  | none => false
  | some e =>
    if e.cancelled then true
    else if e.completed then e.cancelled
    else match wake with
      | .doneClosed => e.cancelled
      | .ctxDone => e.cancelled

end EventResultM

/-- C10 (zero values are safe).  A zero-value Writer (nil store) makes
Emit and EmitMany no-ops that append nothing, and EmitResult returns the
invalid EventResult; and the zero-value EventResult reports Valid false,
Cancelled false, and Wait / WaitCancelled return false for every wake
reason (in particular without depending on the context). -/
theorem C10_zero_writer_safe {T : Type} (v : T) (vs : List T)
    (wake : WakeReason) :
    (WriterM.mk (T := T) none).emit v = none ∧
    (WriterM.mk (T := T) none).emitMany vs = none ∧
    ((WriterM.mk (T := T) none).emitResult v).1 = ⟨none⟩ ∧
    (EventResultM.mk (T := T) none).valid = false ∧
    (EventResultM.mk (T := T) none).cancelledNow = false ∧
    (EventResultM.mk (T := T) none).wait wake = false ∧
    (EventResultM.mk (T := T) none).waitCancelled wake = false :=
  ⟨rfl, rfl, rfl, rfl, rfl, rfl, rfl⟩

/-! ## Periodic gate (internal/scheduler/system.go)

System.ShouldRun compares now against the last recorded run time:
run iff Every == 0 or now - last >= Every.  The zero-time fallback
(lastRunUnix == 0 and a zero LastRun) makes now.Sub(last) the elapsed
time since the year-1 zero Time, which exceeds every representable
Every, so the never-ran state always runs; it is modelled as
last = none.  MarkRun stores the given end time.  There is no
next-deadline state anywhere in the code. -/

structure GateState where
  every : Int
  last : Option Int
  deriving Repr, DecidableEq

/-- Model of System.ShouldRun (system.go lines 100-117). -/
def shouldRun (g : GateState) (now : Int) : Bool :=
  if g.every = 0 then true
  else
    match g.last with
    | none => true
    | some l => g.every ≤ now - l

/-- Model of System.MarkRun (system.go lines 120-123). -/
def markRun (g : GateState) (endTime : Int) : GateState :=
  { g with last := some endTime }

/-- One driver evaluation at time t: run (and record the end time t,
execution modelled as instantaneous) iff ShouldRun allows it. -/
def driveStep (st : GateState × List Int) (t : Int) : GateState × List Int :=
  if shouldRun st.1 t then (markRun st.1 t, st.2 ++ [t]) else st

/-- Execution times produced by a driver that evaluates ShouldRun at the
given times and calls MarkRun with the end time after each execution. -/
def runTimes (P : Int) (l0 : Option Int) (ts : List Int) : List Int :=
  (ts.foldl driveStep (⟨P, l0⟩, [])).2

/-- Separation predicate: consecutive runs at least P apart. -/
def SepBy (P : Int) (l : List Int) : Prop :=
  List.Chain' (fun a b => a + P ≤ b) l

lemma runTimes_invariant (P : Int) (hPne : P ≠ 0) (ts : List Int)
    (g : GateState) (runs : List Int) (hg : g.every = P)
    (hc : SepBy P runs) (hl : runs ≠ [] → g.last = some (runs.getLastD 0)) :
    SepBy P (ts.foldl driveStep (g, runs)).2 ∧
      ((ts.foldl driveStep (g, runs)).2 ≠ [] →
        (ts.foldl driveStep (g, runs)).1.last =
          some ((ts.foldl driveStep (g, runs)).2.getLastD 0)) ∧
      (ts.foldl driveStep (g, runs)).1.every = P := by
  induction ts generalizing g runs with
  | nil => exact ⟨hc, hl, hg⟩
  | cons t rest ih =>
    simp only [List.foldl]
    by_cases hsr : shouldRun g t
    · rw [driveStep, if_pos hsr]
      refine ih _ _ hg ?_ ?_
      · unfold SepBy at hc ⊢
        rw [List.chain'_append]
        refine ⟨hc, List.chain'_singleton t, ?_⟩
        intro x hx y hy
        simp only [List.head?_cons, Option.mem_def, Option.some.injEq] at hy
        subst hy
        cases runs with
        | nil => simp at hx
        | cons r rs =>
          have hne : (r :: rs : List Int) ≠ [] := by simp
          have hlast := hl hne
          unfold shouldRun at hsr
          rw [hg, if_neg hPne, hlast] at hsr
          simp only [decide_eq_true_eq] at hsr
          have hxv : x = (r :: rs).getLastD 0 := by
            rw [Option.mem_def] at hx
            have := List.getLastD_eq_getLast? 0 (r :: rs)
            rw [this, hx]
            rfl
          omega
      · intro _
        simp only [markRun]
        rw [List.getLastD_concat]
    · rw [driveStep, if_neg hsr]
      exact ih g runs hg hc hl

lemma sepBy_length (P : Int) (l : List Int) (hc : SepBy P l) (hne : l ≠ []) :
    ((l.length : Int) - 1) * P ≤ l.getLastD 0 - l.headD 0 := by
  induction l with
  | nil => simp at hne
  | cons a rest ih =>
    cases rest with
    | nil => simp
    | cons b rs =>
      have hab : a + P ≤ b := (List.chain'_cons.mp hc).1
      have hcr : SepBy P (b :: rs) := (List.chain'_cons.mp hc).2
      have hr := ih hcr (by simp)
      have hgl : (a :: b :: rs).getLastD 0 = (b :: rs).getLastD 0 :=
        List.getLastD_cons a 0 (b :: rs)
      have hhd : (a :: b :: rs).headD 0 = a := rfl
      have hhd2 : (b :: rs).headD 0 = b := rfl
      rw [hgl, hhd]
      rw [hhd2] at hr
      have hlen : ((a :: b :: rs).length : Int) = ((b :: rs).length : Int) + 1 := by
        simp
      rw [hlen]
      nlinarith [hr, hab]

/-- Boolean check that consecutive evaluation times are at most P apart
(the driver evaluates at least as often as every P elapsed). -/
def gapsAtMost (P : Int) : List Int → Bool
  | [] => true
  | [_] => true
  | a :: b :: rest => decide (b - a ≤ P) && gapsAtMost P (b :: rest)

/-- C6 counterexample.  Period P = 5; the driver evaluates at times
0, 3, 6, ..., 120 (consecutive evaluations 3 apart, hence at least as
often as every P elapsed) and runs execute instantaneously.  The gate
runs at 0, 6, 12, ..., 120: 21 executions over elapsed time T = 120,
but floor(T/P) = 24, so the claimed lower bound floor(T/P) <= count is
violated. -/
theorem C6_counterexample :
    gapsAtMost 5 ((List.range 41).map (fun i => (3 : Int) * i)) = true ∧
    (runTimes 5 none ((List.range 41).map (fun i => (3 : Int) * i))).length = 21 ∧
    ((120 : Int) / 5 = 24) ∧
    ¬(((120 : Int) / 5) ≤
      ((runTimes 5 none ((List.range 41).map (fun i => (3 : Int) * i))).length : Int)) := by
  set_option maxRecDepth 4000 in
  refine ⟨?_, ?_, ?_, ?_⟩ <;> decide

/-- C6 amended.  What the gate does guarantee, for every positive period
P, every initial gate state and every evaluation schedule: consecutive
executions are separated by at least P; hence over the elapsed time T
between the first and the last execution the count is at most
floor(T/P) + 1; and a system with Every = 0 always runs.  The claimed
lower bound floor(T/P) <= count does not hold (see the counterexample):
ShouldRun measures elapsed time from the previous run rather than from
an absolute deadline, so the schedule drifts. -/
theorem C6_amended (P : Int) (hP : 0 < P) (l0 : Option Int) (ts : List Int) :
    SepBy P (runTimes P l0 ts) ∧
    (runTimes P l0 ts ≠ [] →
      (((runTimes P l0 ts).length : Int) - 1) * P ≤
        (runTimes P l0 ts).getLastD 0 - (runTimes P l0 ts).headD 0) ∧
    (runTimes P l0 ts ≠ [] →
      ((runTimes P l0 ts).length : Int) ≤
        ((runTimes P l0 ts).getLastD 0 - (runTimes P l0 ts).headD 0) / P + 1) ∧
    (∀ g : GateState, g.every = 0 → ∀ now : Int, shouldRun g now = true) := by
  have hinv := runTimes_invariant P (by omega) ts ⟨P, l0⟩ [] rfl
    (by simp [SepBy]) (by simp)
  have hsep : SepBy P (runTimes P l0 ts) := hinv.1
  refine ⟨hsep, fun hne => sepBy_length P _ hsep hne, fun hne => ?_,
    fun g hg now => by simp [shouldRun, hg]⟩
  have hlen := sepBy_length P _ hsep hne
  have hdiv : ((runTimes P l0 ts).length : Int) - 1 ≤
      ((runTimes P l0 ts).getLastD 0 - (runTimes P l0 ts).headD 0) / P :=
    (Int.le_ediv_iff_mul_le hP).mpr hlen
  omega

/-- Witness for C6 amended at period 5 and a concrete schedule. -/
theorem C6_amended_witness :
    (0 : Int) < 5 ∧
    runTimes 5 none [0, 3, 6, 9] ≠ [] ∧
    ((runTimes 5 none [0, 3, 6, 9]).length : Int) ≤
      ((runTimes 5 none [0, 3, 6, 9]).getLastD 0 -
        (runTimes 5 none [0, 3, 6, 9]).headD 0) / 5 + 1 := by
  refine ⟨by decide, by decide, ?_⟩
  exact (C6_amended 5 (by decide) none [0, 3, 6, 9]).2.2.1 (by decide)

/-! ## Access descriptors and conflict detection

Model of AccessMeta (internal/scheduler/system.go), PrepareSets and
Conflicts (internal/scheduler/access.go).  Type tokens (reflect.Type
values) are modelled as naturals; the global type index is a function
idx from tokens to bit positions, injective because indexOf assigns a
fresh dense integer on first observation and never recycles it.  A Go
bitset ([]uint64 with bit i in word i/64 at offset i%64, grown on set)
is exactly the radix-2^64 representation of a natural number: set is a
bitwise or with 2^i, and anyIntersect, which scans the overlapping word
prefix for a nonzero a[k] & b[k], is exactly a nonzero bitwise and (bits
beyond the shorter array are zero in that set, so the prefix suffices).
The precomputed map sets are modelled by their key lists; lookup is list
membership, which agrees with Go map membership for the maps PrepareSets
builds. -/

structure AccessMeta where
  Reads : List Nat
  Writes : List Nat
  ResReads : List Nat
  ResWrites : List Nat
  EventReads : List Nat
  EventWrites : List Nat
  readsSet : Option (List Nat)
  writesSet : Option (List Nat)
  resReadsSet : Option (List Nat)
  resWritesSet : Option (List Nat)
  eventReadsSet : Option (List Nat)
  eventWritesSet : Option (List Nat)
  readsBits : Option Nat
  writesBits : Option Nat
  resReadsBits : Option Nat
  resWritesBits : Option Nat
  eventReadsBits : Option Nat
  eventWritesBits : Option Nat
  deriving Repr, DecidableEq

/-- Model of the build closure of PrepareSets: nil for an empty source
slice, otherwise a map holding exactly the source elements. -/
def mkSet (src : List Nat) : Option (List Nat) :=
  if src.length = 0 then none else some src

/-- Bits of a bitset holding the indices of all source tokens. -/
def mkBitsVal (idx : Nat → Nat) (src : List Nat) : Nat :=
  src.foldl (fun b t => b ||| 2 ^ idx t) 0

/-- Model of the buildBits closure of PrepareSets: nil for an empty
source slice, otherwise the bitset of the token indices. -/
def mkBits (idx : Nat → Nat) (src : List Nat) : Option Nat :=
  if src.length = 0 then none else some (mkBitsVal idx src)

/-- Model of AccessMeta.PrepareSets (system.go lines 50-87). -/
def PrepareSets (idx : Nat → Nat) (a : AccessMeta) : AccessMeta :=
  { a with
      readsSet := mkSet a.Reads
      writesSet := mkSet a.Writes
      resReadsSet := mkSet a.ResReads
      resWritesSet := mkSet a.ResWrites
      eventReadsSet := mkSet a.EventReads
      eventWritesSet := mkSet a.EventWrites
      readsBits := mkBits idx a.Reads
      writesBits := mkBits idx a.Writes
      resReadsBits := mkBits idx a.ResReads
      resWritesBits := mkBits idx a.ResWrites
      eventReadsBits := mkBits idx a.EventReads
      eventWritesBits := mkBits idx a.EventWrites }

/-- An AccessMeta whose derived fields are consistent with its slices,
i.e. a fixed point of PrepareSets (PrepareSets recomputes every derived
field from the slices, so its image is exactly its fixed points). -/
def Prepared (idx : Nat → Nat) (a : AccessMeta) : Prop :=
  a = PrepareSets idx a

/-- Nil-guarded bitset intersection test of the Conflicts fast path:
the three-way conjunction a.bits != nil, b.bits != nil,
a.bits.anyIntersect(b.bits). -/
def optIntersect (a b : Option Nat) : Bool :=
  match a, b with
  | some x, some y => decide (x &&& y ≠ 0)
  | _, _ => false

/-- Fallback membership test of Conflicts: when the precomputed map is
non-nil look the token up there, otherwise scan the slice. -/
def setHas (s : Option (List Nat)) (fallback : List Nat) (w : Nat) : Bool :=
  match s with
  | some keys => decide (w ∈ keys)
  | none => decide (w ∈ fallback)

/-- Model of AccessMeta.Conflicts (access.go lines 6-155): nine
nil-guarded bitset checks (three per namespace), then the map/slice
fallback for the same nine intersections; true as soon as any test
fires. -/
def Conflicts (a other : AccessMeta) : Bool :=
  optIntersect a.writesBits other.readsBits ||
  optIntersect a.writesBits other.writesBits ||
  optIntersect a.readsBits other.writesBits ||
  optIntersect a.resWritesBits other.resReadsBits ||
  optIntersect a.resWritesBits other.resWritesBits ||
  optIntersect a.resReadsBits other.resWritesBits ||
  optIntersect a.eventWritesBits other.eventReadsBits ||
  optIntersect a.eventWritesBits other.eventWritesBits ||
  optIntersect a.eventReadsBits other.eventWritesBits ||
  a.Writes.any (fun w => setHas other.readsSet other.Reads w) ||
  a.Writes.any (fun w => setHas other.writesSet other.Writes w) ||
  a.Reads.any (fun r => setHas other.writesSet other.Writes r) ||
  a.ResWrites.any (fun w => setHas other.resReadsSet other.ResReads w) ||
  a.ResWrites.any (fun w => setHas other.resWritesSet other.ResWrites w) ||
  a.ResReads.any (fun r => setHas other.resWritesSet other.ResWrites r) ||
  a.EventWrites.any (fun w => setHas other.eventReadsSet other.EventReads w) ||
  a.EventWrites.any (fun w => setHas other.eventWritesSet other.EventWrites w) ||
  a.EventReads.any (fun r => setHas other.eventWritesSet other.EventWrites r)

/-- The pairwise conflict rule as the specification states it: in some
namespace, writes meet reads, writes meet writes, or reads meet writes. -/
def SpecConflicts (a b : AccessMeta) : Prop :=
  ((∃ t ∈ a.Writes, t ∈ b.Reads) ∨ (∃ t ∈ a.Writes, t ∈ b.Writes) ∨
    (∃ t ∈ a.Reads, t ∈ b.Writes)) ∨
  ((∃ t ∈ a.ResWrites, t ∈ b.ResReads) ∨ (∃ t ∈ a.ResWrites, t ∈ b.ResWrites) ∨
    (∃ t ∈ a.ResReads, t ∈ b.ResWrites)) ∨
  ((∃ t ∈ a.EventWrites, t ∈ b.EventReads) ∨
    (∃ t ∈ a.EventWrites, t ∈ b.EventWrites) ∨
    (∃ t ∈ a.EventReads, t ∈ b.EventWrites))

lemma testBit_mkBitsVal (idx : Nat → Nat) (l : List Nat) (j : Nat) :
    (mkBitsVal idx l).testBit j = true ↔ ∃ t ∈ l, idx t = j := by
  have key : ∀ b : Nat,
      (l.foldl (fun b t => b ||| 2 ^ idx t) b).testBit j = true ↔
        b.testBit j = true ∨ ∃ t ∈ l, idx t = j := by
    induction l with
    | nil => intro b; simp
    | cons t rest ih =>
      intro b
      simp only [List.foldl]
      rw [ih]
      have hpow : (2 ^ idx t).testBit j = true ↔ idx t = j := by
        by_cases hj : idx t = j
        · subst hj; simp [Nat.testBit_two_pow_self]
        · simp [Nat.testBit_two_pow_of_ne hj, hj]
      have hor : (b ||| 2 ^ idx t).testBit j =
          (b.testBit j || (2 ^ idx t).testBit j) := Nat.testBit_lor b _ j
      rw [hor]
      simp only [Bool.or_eq_true, hpow, List.mem_cons]
      constructor
      · rintro (⟨h | h⟩ | h)
        · exact Or.inl h
        · exact Or.inr ⟨t, Or.inl rfl, h⟩
        · rcases h with ⟨u, hu, hj⟩
          exact Or.inr ⟨u, Or.inr hu, hj⟩
      · rintro (h | ⟨u, hu, hj⟩)
        · exact Or.inl (Or.inl h)
        · rcases hu with rfl | hu2
          · exact Or.inl (Or.inr hj)
          · exact Or.inr ⟨u, hu2, hj⟩
  have := key 0
  simpa using this

lemma land_ne_zero_iff (x y : Nat) :
    x &&& y ≠ 0 ↔ ∃ j, x.testBit j = true ∧ y.testBit j = true := by
  constructor
  · intro h
    by_contra hall
    push_neg at hall
    apply h
    apply Nat.eq_of_testBit_eq
    intro j
    rw [Nat.testBit_and, Nat.zero_testBit]
    by_cases hx : x.testBit j
    · have := hall j hx
      simp [hx, this]
    · simp [hx]
  · rintro ⟨j, hx, hy⟩ h0
    have := congrArg (fun n => n.testBit j) h0
    simp [Nat.testBit_and, hx, hy, Nat.zero_testBit] at this

/-- The bitset fast-path test agrees with list intersection for bitsets
built from an injective index. -/
lemma optIntersect_mkBits (idx : Nat → Nat) (hinj : Function.Injective idx)
    (l1 l2 : List Nat) :
    optIntersect (mkBits idx l1) (mkBits idx l2) = true ↔ ∃ t ∈ l1, t ∈ l2 := by
  unfold mkBits optIntersect
  by_cases h1 : l1.length = 0
  · rw [if_pos h1]
    rw [List.length_eq_zero] at h1
    subst h1
    simp
  · rw [if_neg h1]
    by_cases h2 : l2.length = 0
    · rw [if_pos h2]
      rw [List.length_eq_zero] at h2
      subst h2
      simp
    · rw [if_neg h2]
      simp only [decide_eq_true_eq]
      rw [land_ne_zero_iff]
      constructor
      · rintro ⟨j, hx, hy⟩
        rcases (testBit_mkBitsVal idx l1 j).mp hx with ⟨t, ht, htj⟩
        rcases (testBit_mkBitsVal idx l2 j).mp hy with ⟨u, hu, huj⟩
        have : t = u := hinj (htj.trans huj.symm)
        exact ⟨t, ht, this ▸ hu⟩
      · rintro ⟨t, h1m, h2m⟩
        exact ⟨idx t, (testBit_mkBitsVal idx l1 _).mpr ⟨t, h1m, rfl⟩,
          (testBit_mkBitsVal idx l2 _).mpr ⟨t, h2m, rfl⟩⟩

/-- The fallback test on a prepared map agrees with list intersection. -/
lemma any_setHas_mkSet (l1 l2 : List Nat) :
    (l1.any (fun w => setHas (mkSet l2) l2 w) = true) ↔ ∃ t ∈ l1, t ∈ l2 := by
  unfold mkSet setHas
  by_cases h2 : l2.length = 0 <;> simp [h2, List.any_eq_true]

/-- The fallback test with a nil map (unprepared descriptor) also agrees
with list intersection. -/
lemma any_setHas_none (l1 l2 : List Nat) :
    (l1.any (fun w => setHas none l2 w) = true) ↔ ∃ t ∈ l1, t ∈ l2 := by
  simp [setHas, List.any_eq_true]

lemma exists_mem_comm (l1 l2 : List Nat) :
    (∃ t ∈ l1, t ∈ l2) ↔ ∃ t ∈ l2, t ∈ l1 := by
  constructor <;> rintro ⟨t, h1, h2⟩ <;> exact ⟨t, h2, h1⟩

/-- An AccessMeta with no derived fields at all (the state before
PrepareSets runs): Conflicts then takes the pure slice fallback path. -/
def rawOf (a : AccessMeta) : AccessMeta :=
  { a with
      readsSet := none, writesSet := none, resReadsSet := none,
      resWritesSet := none, eventReadsSet := none, eventWritesSet := none,
      readsBits := none, writesBits := none, resReadsBits := none,
      resWritesBits := none, eventReadsBits := none, eventWritesBits := none }

lemma prepared_fields (idx : Nat → Nat) (a : AccessMeta) (ha : Prepared idx a) :
    a.readsSet = mkSet a.Reads ∧ a.writesSet = mkSet a.Writes ∧
    a.resReadsSet = mkSet a.ResReads ∧ a.resWritesSet = mkSet a.ResWrites ∧
    a.eventReadsSet = mkSet a.EventReads ∧
    a.eventWritesSet = mkSet a.EventWrites ∧
    a.readsBits = mkBits idx a.Reads ∧ a.writesBits = mkBits idx a.Writes ∧
    a.resReadsBits = mkBits idx a.ResReads ∧
    a.resWritesBits = mkBits idx a.ResWrites ∧
    a.eventReadsBits = mkBits idx a.EventReads ∧
    a.eventWritesBits = mkBits idx a.EventWrites := by
  rw [Prepared] at ha
  exact ⟨congrArg AccessMeta.readsSet ha, congrArg AccessMeta.writesSet ha,
    congrArg AccessMeta.resReadsSet ha, congrArg AccessMeta.resWritesSet ha,
    congrArg AccessMeta.eventReadsSet ha, congrArg AccessMeta.eventWritesSet ha,
    congrArg AccessMeta.readsBits ha, congrArg AccessMeta.writesBits ha,
    congrArg AccessMeta.resReadsBits ha, congrArg AccessMeta.resWritesBits ha,
    congrArg AccessMeta.eventReadsBits ha, congrArg AccessMeta.eventWritesBits ha⟩

lemma conflicts_iff_spec (idx : Nat → Nat) (hinj : Function.Injective idx)
    (a b : AccessMeta) (ha : Prepared idx a) (hb : Prepared idx b) :
    Conflicts a b = true ↔ SpecConflicts a b := by
  obtain ⟨_, _, _, _, _, _, _, _, _, _, _, _⟩ := prepared_fields idx a ha
  obtain ⟨hb1, hb2, hb3, hb4, hb5, hb6, hb7, hb8, hb9, hb10, hb11, hb12⟩ :=
    prepared_fields idx b hb
  obtain ⟨_, _, _, _, _, _, ha7, ha8, ha9, ha10, ha11, ha12⟩ :=
    prepared_fields idx a ha
  unfold Conflicts SpecConflicts
  rw [hb1, hb2, hb3, hb4, hb5, hb6, hb7, hb8, hb9, hb10, hb11, hb12,
    ha7, ha8, ha9, ha10, ha11, ha12]
  simp only [Bool.or_eq_true]
  rw [optIntersect_mkBits idx hinj, optIntersect_mkBits idx hinj,
    optIntersect_mkBits idx hinj, optIntersect_mkBits idx hinj,
    optIntersect_mkBits idx hinj, optIntersect_mkBits idx hinj,
    optIntersect_mkBits idx hinj, optIntersect_mkBits idx hinj,
    optIntersect_mkBits idx hinj,
    any_setHas_mkSet, any_setHas_mkSet, any_setHas_mkSet, any_setHas_mkSet,
    any_setHas_mkSet, any_setHas_mkSet, any_setHas_mkSet, any_setHas_mkSet,
    any_setHas_mkSet]
  generalize (∃ t ∈ a.Writes, t ∈ b.Reads) = P1
  generalize (∃ t ∈ a.Writes, t ∈ b.Writes) = P2
  generalize (∃ t ∈ a.Reads, t ∈ b.Writes) = P3
  generalize (∃ t ∈ a.ResWrites, t ∈ b.ResReads) = P4
  generalize (∃ t ∈ a.ResWrites, t ∈ b.ResWrites) = P5
  generalize (∃ t ∈ a.ResReads, t ∈ b.ResWrites) = P6
  generalize (∃ t ∈ a.EventWrites, t ∈ b.EventReads) = P7
  generalize (∃ t ∈ a.EventWrites, t ∈ b.EventWrites) = P8
  generalize (∃ t ∈ a.EventReads, t ∈ b.EventWrites) = P9
  tauto

lemma conflicts_raw_iff_spec (a b : AccessMeta) :
    Conflicts (rawOf a) (rawOf b) = true ↔ SpecConflicts a b := by
  unfold Conflicts SpecConflicts rawOf optIntersect
  simp only [Bool.or_eq_true]
  rw [any_setHas_none, any_setHas_none, any_setHas_none, any_setHas_none,
    any_setHas_none, any_setHas_none, any_setHas_none, any_setHas_none,
    any_setHas_none]
  simp only [Bool.false_eq_true, false_or]
  generalize (∃ t ∈ a.Writes, t ∈ b.Reads) = P1
  generalize (∃ t ∈ a.Writes, t ∈ b.Writes) = P2
  generalize (∃ t ∈ a.Reads, t ∈ b.Writes) = P3
  generalize (∃ t ∈ a.ResWrites, t ∈ b.ResReads) = P4
  generalize (∃ t ∈ a.ResWrites, t ∈ b.ResWrites) = P5
  generalize (∃ t ∈ a.ResReads, t ∈ b.ResWrites) = P6
  generalize (∃ t ∈ a.EventWrites, t ∈ b.EventReads) = P7
  generalize (∃ t ∈ a.EventWrites, t ∈ b.EventWrites) = P8
  generalize (∃ t ∈ a.EventReads, t ∈ b.EventWrites) = P9
  tauto

lemma or3_rev (p q r : Prop) : (p ∨ q ∨ r) ↔ (r ∨ q ∨ p) := by tauto

lemma specConflicts_symm (a b : AccessMeta) :
    SpecConflicts a b ↔ SpecConflicts b a := by
  unfold SpecConflicts
  rw [exists_mem_comm a.Writes b.Reads, exists_mem_comm a.Writes b.Writes,
    exists_mem_comm a.Reads b.Writes,
    exists_mem_comm a.ResWrites b.ResReads,
    exists_mem_comm a.ResWrites b.ResWrites,
    exists_mem_comm a.ResReads b.ResWrites,
    exists_mem_comm a.EventWrites b.EventReads,
    exists_mem_comm a.EventWrites b.EventWrites,
    exists_mem_comm a.EventReads b.EventWrites]
  exact or_congr (or3_rev _ _ _) (or_congr (or3_rev _ _ _) (or3_rev _ _ _))

/-- Conflict detection is symmetric on prepared descriptors. -/
lemma conflicts_symm (idx : Nat → Nat) (hinj : Function.Injective idx)
    (a b : AccessMeta) (ha : Prepared idx a) (hb : Prepared idx b) :
    Conflicts a b = Conflicts b a := by
  rw [Bool.eq_iff_iff, conflicts_iff_spec idx hinj a b ha hb,
    conflicts_iff_spec idx hinj b a hb ha]
  exact specConflicts_symm a b

/-- C1 (conflict rule).  For descriptors prepared by PrepareSets over
the injective global type index: Conflicts returns true iff, in one of
the three namespaces, writes meet reads, writes meet writes, or reads
meet writes; the same equivalence holds on the pure map/slice fallback
path (descriptors with no precomputed sets); conflict is symmetric; and
two descriptors that only read never conflict. -/
theorem C1_conflicts_rule (idx : Nat → Nat) (hinj : Function.Injective idx)
    (a b : AccessMeta) (ha : Prepared idx a) (hb : Prepared idx b) :
    (Conflicts a b = true ↔ SpecConflicts a b) ∧
    (Conflicts (rawOf a) (rawOf b) = true ↔ SpecConflicts a b) ∧
    Conflicts a b = Conflicts b a ∧
    (a.Writes = [] → a.ResWrites = [] → a.EventWrites = [] →
      b.Writes = [] → b.ResWrites = [] → b.EventWrites = [] →
      Conflicts a b = false) := by
  refine ⟨conflicts_iff_spec idx hinj a b ha hb, conflicts_raw_iff_spec a b,
    conflicts_symm idx hinj a b ha hb, ?_⟩
  intro haw harw haew hbw hbrw hbew
  by_contra hc
  have : Conflicts a b = true := by
    cases hcb : Conflicts a b
    · exact absurd hcb hc
    · rfl
  have hs := (conflicts_iff_spec idx hinj a b ha hb).mp this
  unfold SpecConflicts at hs
  rw [haw, harw, haew, hbw, hbrw, hbew] at hs
  simp at hs

/-- Raw descriptor with the six slices and no derived state. -/
def mkRaw (r w rr rw er ew : List Nat) : AccessMeta :=
  ⟨r, w, rr, rw, er, ew, none, none, none, none, none, none,
    none, none, none, none, none, none⟩

/-- Witness for C1: a writer of token 0 against a reader of token 0,
prepared over the identity index. -/
theorem C1_conflicts_rule_witness :
    Function.Injective (fun t : Nat => t) ∧
    Prepared (fun t => t) (PrepareSets (fun t => t) (mkRaw [] [0] [] [] [] [])) ∧
    Prepared (fun t => t) (PrepareSets (fun t => t) (mkRaw [0] [] [] [] [] [])) ∧
    Conflicts (PrepareSets (fun t => t) (mkRaw [] [0] [] [] [] []))
        (PrepareSets (fun t => t) (mkRaw [0] [] [] [] [] [])) =
      Conflicts (PrepareSets (fun t => t) (mkRaw [0] [] [] [] [] []))
        (PrepareSets (fun t => t) (mkRaw [] [0] [] [] [] [])) ∧
    Conflicts (PrepareSets (fun t => t) (mkRaw [] [0] [] [] [] []))
        (PrepareSets (fun t => t) (mkRaw [0] [] [] [] [] [])) = true := by
  have hinj : Function.Injective (fun t : Nat => t) := fun x y h => h
  have hA : Prepared (fun t : Nat => t)
      (PrepareSets (fun t => t) (mkRaw [] [0] [] [] [] [])) := rfl
  have hB : Prepared (fun t : Nat => t)
      (PrepareSets (fun t => t) (mkRaw [0] [] [] [] [] [])) := rfl
  have h := C1_conflicts_rule (fun t => t) hinj _ _ hA hB
  refine ⟨hinj, hA, hB, h.2.2.1, ?_⟩
  exact h.1.mpr (Or.inl (Or.inl ⟨0, by decide, by decide⟩))

/-! ## Scheduler: dependency graph construction

Model of the per-stage data of internal/scheduler/scheduler.go.  Systems
of a stage are a list; a system is identified by its position in that
list (Go identifies systems by pointer; positions are distinct even when
names collide).  nameToSys is built by insertion in list order with
overwrite, so a name resolves to the LAST system bearing it; setMembers
collects, per non-empty set name, the members in list order.  Both
topologicalSort and computeBatches build the same edge set: for each
system s, each Before target resolves to a system (name first) or to all
members of a set, giving edges s -> t; each After dependency gives
edges d -> s; unresolved references contribute nothing; edges are
deduplicated.  Only the edge set matters downstream (in-degrees count
distinct predecessors, and ready lists are re-sorted by name), so the
model keeps one deduplicated edge list. -/

structure Sys where
  name : String
  setName : String
  before : List String
  after : List String
  access : AccessMeta

/-- Name of the system at a position. -/
def nameAt (ss : List Sys) (i : Nat) : String :=
  match ss.get? i with
  | some s => s.name
  | none => ""

/-- Access descriptor of the system at a position (out of range gives
the empty descriptor, which never occurs on reachable indices). -/
def accessAt (ss : List Sys) (i : Nat) : AccessMeta :=
  match ss.get? i with
  | some s => s.access
  | none => mkRaw [] [] [] [] [] []

/-- Whether the systems at two positions conflict. -/
def conflictAt (ss : List Sys) (i j : Nat) : Bool :=
  Conflicts (accessAt ss i) (accessAt ss j)

/-- Resolution of a name through nameToSys: the last system with that
name, if any. -/
def nameIdx (ss : List Sys) (nm : String) : Option Nat :=
  ((List.range ss.length).filter (fun i => nameAt ss i = nm)).getLast?

/-- Resolution of a set name through setMembers: all members in list
order; the empty name owns no set entry. -/
def setIdxs (ss : List Sys) (nm : String) : List Nat :=
  if nm = "" then []
  else (List.range ss.length).filter (fun i =>
    match ss.get? i with
    | some s => s.setName = nm
    | none => false)

/-- Systems a constraint string resolves to: a system by name first,
else the members of a set, else nothing (unknown targets are ignored). -/
def resolve (ss : List Sys) (t : String) : List Nat :=
  match nameIdx ss t with
  | some j => [j]
  | none => setIdxs ss t

/-- Edge pairs contributed by the system at position i: Before targets
give i -> t, After dependencies give d -> i. -/
def edgesOfSys (ss : List Sys) (i : Nat) : List (Nat × Nat) :=
  (match ss.get? i with
   | some s =>
      ((s.before.map (fun t => (resolve ss t).map (fun j => (i, j)))).flatten ++
       (s.after.map (fun d => (resolve ss d).map (fun j => (j, i)))).flatten)
   | none => [])

/-- All constraint edges of the stage, before deduplication. -/
def rawEdges (ss : List Sys) : List (Nat × Nat) :=
  ((List.range ss.length).map (edgesOfSys ss)).flatten

/-- Deduplicated constraint edges (the edge set both topologicalSort and
computeBatches operate on). -/
def edges (ss : List Sys) : List (Nat × Nat) :=
  (rawEdges ss).dedup

/-- Outgoing neighbours of a node: targets of its edges, each once. -/
def outNbrs (ss : List Sys) (u : Nat) : List Nat :=
  ((edges ss).filter (fun e => e.1 = u)).map (fun e => e.2)

/-- Initial in-degree of a node: its number of distinct incoming edges. -/
def inDeg0 (ss : List Sys) (v : Nat) : Nat :=
  ((edges ss).filter (fun e => e.2 = v)).length

/-- Deterministic name-ascending sort of a list of positions
(sort.Slice with a Less comparing names). -/
def sortByName (ss : List Sys) (l : List Nat) : List Nat :=
  List.insertionSort (fun i j => nameAt ss i ≤ nameAt ss j) l

lemma sortByName_perm (ss : List Sys) (l : List Nat) :
    (sortByName ss l).Perm l :=
  List.perm_insertionSort _ l

lemma sortByName_length (ss : List Sys) (l : List Nat) :
    (sortByName ss l).length = l.length :=
  (sortByName_perm ss l).length_eq

lemma sortByName_mem (ss : List Sys) (l : List Nat) (v : Nat) :
    v ∈ sortByName ss l ↔ v ∈ l :=
  (sortByName_perm ss l).mem_iff

lemma sortByName_nodup (ss : List Sys) (l : List Nat) (h : l.Nodup) :
    (sortByName ss l).Nodup :=
  ((sortByName_perm ss l).nodup_iff).mpr h

/-- Sum of the nonnegative parts of the in-degree slots (the termination
measure component). -/
def toNatSum (l : List Int) : Nat := (l.map Int.toNat).sum

lemma toNatSum_set (l : List Int) (i : Nat) (v : Int) (h : i < l.length) :
    toNatSum (l.set i v) + (l.getD i 0).toNat = toNatSum l + v.toNat := by
  induction l generalizing i with
  | nil => simp at h
  | cons a rest ih =>
    cases i with
    | zero => simp [toNatSum, List.getD_cons_zero]; omega
    | succ i =>
      simp only [List.set_cons_succ, List.getD_cons_succ, toNatSum,
        List.map_cons, List.sum_cons] at *
      have := ih i (by simpa using h)
      omega

lemma toNatSum_set_of_ge (l : List Int) (v : Int) {i : Nat}
    (h : l.length ≤ i) : toNatSum (l.set i v) = toNatSum l := by
  rw [listSet_of_ge l v h]

/-- Decrement the in-degree of every listed neighbour, appending each
slot that reaches exactly zero to the pending queue (the inner loop of
both Kahn processing and batch emission). -/
def processNbrs (st : List Int × List Nat) (nbrs : List Nat) :
    List Int × List Nat :=
  nbrs.foldl (fun (acc : List Int × List Nat) nb =>
    let d := acc.1.getD nb 0 - 1
    (acc.1.set nb d, if d = 0 then acc.2 ++ [nb] else acc.2)) st

/-- Processing neighbours never increases queue length plus in-degree
mass: every enqueue is paid for by a positive-to-zero decrement. -/
lemma processNbrs_measure (st : List Int × List Nat) (nbrs : List Nat) :
    (processNbrs st nbrs).2.length + toNatSum (processNbrs st nbrs).1 ≤
      st.2.length + toNatSum st.1 := by
  induction nbrs generalizing st with
  | nil => exact Nat.le_refl _
  | cons nb rest ih =>
    have hstep :
        (if st.1.getD nb 0 - 1 = 0 then st.2 ++ [nb] else st.2).length +
          toNatSum (st.1.set nb (st.1.getD nb 0 - 1)) ≤
        st.2.length + toNatSum st.1 := by
      by_cases hln : nb < st.1.length
      · have hset := toNatSum_set st.1 nb (st.1.getD nb 0 - 1) hln
        by_cases hz : st.1.getD nb 0 - 1 = 0
        · have hone : st.1.getD nb 0 = 1 := by omega
          rw [if_pos hz]
          simp only [List.length_append, List.length_cons, List.length_nil]
          omega
        · rw [if_neg hz]
          have : (st.1.getD nb 0 - 1).toNat ≤ (st.1.getD nb 0).toNat := by
            omega
          omega
      · rw [toNatSum_set_of_ge st.1 _ (Nat.le_of_not_lt hln)]
        have h0 : st.1.getD nb 0 = 0 := listGetD_of_ge st.1 0 (Nat.le_of_not_lt hln)
        rw [h0]
        norm_num
    calc (processNbrs _ rest).2.length + toNatSum (processNbrs _ rest).1 ≤ _ :=
          ih _
      _ ≤ st.2.length + toNatSum st.1 := hstep

lemma processNbrs_length (st : List Int × List Nat) (nbrs : List Nat) :
    (processNbrs st nbrs).1.length = st.1.length := by
  induction nbrs generalizing st with
  | nil => rfl
  | cons nb rest ih =>
    simp only [processNbrs, List.foldl] at *
    rw [ih]
    simp

/-! ## Scheduler: topological sort (scheduler.go lines 160-239) -/

/-- State of the Kahn loop: in-degree slots, the name-sorted zero queue,
and the emitted order. -/
structure TopoState where
  inDeg : List Int
  queue : List Nat
  result : List Nat

/-- Measure of the Kahn loop. -/
def topoMeasure (st : TopoState) : Nat :=
  st.queue.length + toNatSum st.inDeg

/-- Kahn loop: pop the head of the sorted zero queue, emit it, decrement
its outgoing neighbours enqueueing those that reach zero, re-sort. -/
def topoLoop (ss : List Sys) (st : TopoState) : TopoState :=
  match hq : st.queue with
  | [] => st
  | cur :: rest =>
    let pr := processNbrs (st.inDeg, rest) (outNbrs ss cur)
    topoLoop ss ⟨pr.1, sortByName ss pr.2, st.result ++ [cur]⟩
termination_by topoMeasure st
decreasing_by
  have hm := processNbrs_measure (st.inDeg, rest) (outNbrs ss cur)
  simp only [topoMeasure, sortByName_length]
  dsimp only at hm
  have : st.queue.length = rest.length + 1 := by rw [hq]; rfl
  omega

/-- Initial Kahn state: original in-degrees, zero-in-degree nodes in
list order then sorted by name, empty output. -/
def topoInit (ss : List Sys) : TopoState :=
  ⟨(List.range ss.length).map (fun v => (inDeg0 ss v : Int)),
   sortByName ss ((List.range ss.length).filter (fun v => inDeg0 ss v = 0)),
   []⟩

/-- Model of Scheduler.topologicalSort: run Kahn; fewer emitted nodes
than systems means a cycle. -/
def topologicalSort (ss : List Sys) : Except String (List Nat) :=
  let res := (topoLoop ss (topoInit ss)).result
  if res.length ≠ ss.length then Except.error "cyclic dependency detected"
  else Except.ok res

/-! ## Scheduler: batch planning (scheduler.go lines 243-378) -/

/-- State of the batch-planning loops. -/
structure BatchState where
  inDeg : List Int
  ready : List Nat
  remaining : Int
  batches : List (List Nat)

/-- One step of the greedy packing pass: admit the candidate iff it
conflicts with no already-admitted system, else leave it unadmitted. -/
def packStep (ss : List Sys) (acc : List Nat × List Nat) (i : Nat) :
    List Nat × List Nat :=
  if acc.1.all (fun j => !(conflictAt ss i j)) then (acc.1 ++ [i], acc.2)
  else (acc.1, acc.2 ++ [i])

/-- Greedy packing pass over the current ready list in order: admit a
system iff it conflicts with no already-admitted one; returns the
admitted batch and the unadmitted rest, both in order. -/
def greedyPack (ss : List Sys) (cur : List Nat) : List Nat × List Nat :=
  cur.foldl (packStep ss) ([], [])

/-- Emission of one admitted system: decrement its outgoing neighbours
(collecting slots that reach exactly zero), then mark it removed by
setting its slot to -1. -/
def emitOne (ss : List Sys) (acc : List Int × List Nat) (s : Nat) :
    List Int × List Nat :=
  ((processNbrs acc (outNbrs ss s)).1.set s (-1),
   (processNbrs acc (outNbrs ss s)).2)

/-- Emission of one batch, member by member in admitted order. -/
def emitStep (ss : List Sys) (inDeg : List Int) (batch : List Nat) :
    List Int × List Nat :=
  batch.foldl (emitOne ss) (inDeg, [])

/-- Next ready list after a batch: the unadmitted systems plus the newly
ready ones, as a set, filtered to zero in-degree, sorted by name. -/
def nextReady (ss : List Sys) (inDeg2 : List Int)
    (unadmitted newly : List Nat) : List Nat :=
  sortByName ss (((unadmitted ++ newly).dedup).filter
    (fun v => inDeg2.getD v 0 = 0))

lemma emitStep_fold_measure (ss : List Sys) (batch : List Nat) :
    ∀ st : List Int × List Nat,
      (batch.foldl (emitOne ss) st).2.length +
        toNatSum (batch.foldl (emitOne ss) st).1 ≤
      st.2.length + toNatSum st.1 := by
  induction batch with
  | nil => intro st; exact Nat.le_refl _
  | cons s rest ih =>
    intro st
    simp only [List.foldl]
    have h1 := processNbrs_measure st (outNbrs ss s)
    have h2 : toNatSum ((processNbrs st (outNbrs ss s)).1.set s (-1)) ≤
        toNatSum (processNbrs st (outNbrs ss s)).1 := by
      by_cases hl : s < (processNbrs st (outNbrs ss s)).1.length
      · have := toNatSum_set (processNbrs st (outNbrs ss s)).1 s (-1) hl
        omega
      · rw [toNatSum_set_of_ge _ _ (Nat.le_of_not_lt hl)]
    calc (rest.foldl (emitOne ss) (emitOne ss st s)).2.length +
          toNatSum (rest.foldl (emitOne ss) (emitOne ss st s)).1 ≤
          (emitOne ss st s).2.length + toNatSum (emitOne ss st s).1 := ih _
      _ ≤ st.2.length + toNatSum st.1 := by
          simp only [emitOne]
          omega

lemma emitStep_measure (ss : List Sys) (inDeg : List Int) (batch : List Nat) :
    (emitStep ss inDeg batch).2.length + toNatSum (emitStep ss inDeg batch).1 ≤
      toNatSum inDeg := by
  have := emitStep_fold_measure ss batch (inDeg, [])
  simpa [emitStep] using this

lemma greedyPack_fold_sizes (ss : List Sys) (cur : List Nat) :
    ∀ acc : List Nat × List Nat,
      (cur.foldl (packStep ss) acc).1.length +
        (cur.foldl (packStep ss) acc).2.length =
      acc.1.length + acc.2.length + cur.length := by
  induction cur with
  | nil => intro acc; simp
  | cons i rest ih =>
    intro acc
    simp only [List.foldl]
    rw [ih (packStep ss acc i)]
    unfold packStep
    split <;> simp <;> omega

lemma greedyPack_sizes (ss : List Sys) (cur : List Nat) :
    (greedyPack ss cur).1.length + (greedyPack ss cur).2.length = cur.length := by
  have := greedyPack_fold_sizes ss cur ([], [])
  simpa [greedyPack] using this

lemma greedyPack_fold_len_ge (ss : List Sys) (cur : List Nat) :
    ∀ acc : List Nat × List Nat,
      acc.1.length ≤ (cur.foldl (packStep ss) acc).1.length := by
  induction cur with
  | nil => intro acc; exact Nat.le_refl _
  | cons i rest ih =>
    intro acc
    simp only [List.foldl]
    refine Nat.le_trans ?_ (ih (packStep ss acc i))
    unfold packStep
    split <;> simp

lemma greedyPack_batch_empty_iff (ss : List Sys) (cur : List Nat) :
    (greedyPack ss cur).1 = [] ↔ cur = [] := by
  cases cur with
  | nil => simp [greedyPack]
  | cons i rest =>
    constructor
    · intro h
      exfalso
      have hstep : packStep ss ([], []) i = ([i], []) := by
        simp [packStep]
      have hge := greedyPack_fold_len_ge ss rest ([i], [])
      have : (greedyPack ss (i :: rest)).1.length = 0 := by rw [h]; rfl
      unfold greedyPack at this
      simp only [List.foldl, hstep] at this
      simp at hge
      omega
    · intro h
      exact absurd h (by simp)

/-- Inner batching loop (the for loop packing batches from the current
ready set until a batch comes out empty). -/
def innerLoop (ss : List Sys) (st : BatchState) : BatchState :=
  match hb : (greedyPack ss st.ready).1 with
  | [] => st
  | b0 :: brest =>
    let batch := b0 :: brest
    let pr := emitStep ss st.inDeg batch
    innerLoop ss
      ⟨pr.1, nextReady ss pr.1 (greedyPack ss st.ready).2 pr.2,
       st.remaining - batch.length, st.batches ++ [batch]⟩
termination_by st.ready.length + toNatSum st.inDeg
decreasing_by
  have hm := emitStep_measure ss st.inDeg (b0 :: brest)
  have hsz := greedyPack_sizes ss st.ready
  have hnr : (nextReady ss (emitStep ss st.inDeg (b0 :: brest)).1
      (greedyPack ss st.ready).2 (emitStep ss st.inDeg (b0 :: brest)).2).length ≤
      (greedyPack ss st.ready).2.length +
        (emitStep ss st.inDeg (b0 :: brest)).2.length := by
    unfold nextReady
    rw [sortByName_length]
    calc _ ≤ (((greedyPack ss st.ready).2 ++
          (emitStep ss st.inDeg (b0 :: brest)).2).dedup).length :=
          List.length_filter_le _ _
      _ ≤ ((greedyPack ss st.ready).2 ++
          (emitStep ss st.inDeg (b0 :: brest)).2).length :=
          (List.dedup_sublist _).length_le
      _ = _ := List.length_append _ _
  have hb1 : (greedyPack ss st.ready).1.length = brest.length + 1 := by
    rw [hb]; rfl
  show (nextReady ss (emitStep ss st.inDeg (b0 :: brest)).1
      (greedyPack ss st.ready).2 (emitStep ss st.inDeg (b0 :: brest)).2).length +
      toNatSum (emitStep ss st.inDeg (b0 :: brest)).1 <
    st.ready.length + toNatSum st.inDeg
  omega

/-- First system (in list order) still bearing a positive in-degree, if
any: the defensive stall-recovery pick. -/
def stallPick (ss : List Sys) (inDeg : List Int) : Option Nat :=
  (List.range ss.length).find? (fun v => decide (0 < inDeg.getD v 0))

lemma innerLoop_remaining_le (ss : List Sys) (st : BatchState) :
    (innerLoop ss st).remaining ≤ st.remaining := by
  generalize hμ : st.ready.length + toNatSum st.inDeg = m
  induction m using Nat.strong_induction_on generalizing st with
  | _ m ih =>
    unfold innerLoop
    split
    · exact Int.le_refl _
    · rename_i b0 brest hb
      have hm := emitStep_measure ss st.inDeg (b0 :: brest)
      have hsz := greedyPack_sizes ss st.ready
      have hb1 : (greedyPack ss st.ready).1.length = brest.length + 1 := by
        rw [hb]; rfl
      have hnr : (nextReady ss (emitStep ss st.inDeg (b0 :: brest)).1
          (greedyPack ss st.ready).2 (emitStep ss st.inDeg (b0 :: brest)).2).length ≤
          (greedyPack ss st.ready).2.length +
            (emitStep ss st.inDeg (b0 :: brest)).2.length := by
        unfold nextReady
        rw [sortByName_length]
        calc _ ≤ (((greedyPack ss st.ready).2 ++
              (emitStep ss st.inDeg (b0 :: brest)).2).dedup).length :=
              List.length_filter_le _ _
          _ ≤ ((greedyPack ss st.ready).2 ++
              (emitStep ss st.inDeg (b0 :: brest)).2).length :=
              (List.dedup_sublist _).length_le
          _ = _ := List.length_append _ _
      have hrec := ih
        ((nextReady ss (emitStep ss st.inDeg (b0 :: brest)).1
            (greedyPack ss st.ready).2
            (emitStep ss st.inDeg (b0 :: brest)).2).length +
          toNatSum (emitStep ss st.inDeg (b0 :: brest)).1)
        (by subst hμ; omega)
        ⟨(emitStep ss st.inDeg (b0 :: brest)).1,
          nextReady ss (emitStep ss st.inDeg (b0 :: brest)).1
            (greedyPack ss st.ready).2 (emitStep ss st.inDeg (b0 :: brest)).2,
          st.remaining - (b0 :: brest).length, st.batches ++ [b0 :: brest]⟩ rfl
      simp only [List.length_cons] at hrec ⊢
      omega

lemma innerLoop_remaining_lt (ss : List Sys) (st : BatchState)
    (hr : st.ready ≠ []) :
    (innerLoop ss st).remaining ≤ st.remaining - 1 := by
  unfold innerLoop
  split
  · rename_i hb
    exact absurd ((greedyPack_batch_empty_iff ss st.ready).mp hb) hr
  · rename_i b0 brest hb
    have := innerLoop_remaining_le ss
      ⟨(emitStep ss st.inDeg (b0 :: brest)).1,
        nextReady ss (emitStep ss st.inDeg (b0 :: brest)).1
          (greedyPack ss st.ready).2 (emitStep ss st.inDeg (b0 :: brest)).2,
        st.remaining - (b0 :: brest).length, st.batches ++ [b0 :: brest]⟩
    simp only [List.length_cons] at this ⊢
    omega

/-- Outer batching loop (while systems remain: fix an empty ready list
through the stall pick, then run the inner loop). -/
def outerLoop (ss : List Sys) (st : BatchState) : BatchState :=
  if h0 : st.remaining ≤ 0 then st
  else
    match hr : st.ready with
    | [] =>
      match stallPick ss st.inDeg with
      | none => st
      | some x => outerLoop ss (innerLoop ss { st with ready := [x] })
    | r0 :: rrest => outerLoop ss (innerLoop ss st)
termination_by st.remaining.toNat
decreasing_by
  · have := innerLoop_remaining_lt ss { st with ready := [x] } (by simp)
    simp only at this
    omega
  · have := innerLoop_remaining_lt ss st (by rw [hr]; simp)
    omega

/-- Model of Scheduler.computeBatches: build in-degrees, start from the
sorted zero-in-degree ready list, loop. -/
def computeBatches (ss : List Sys) : List (List Nat) :=
  (outerLoop ss
    ⟨(List.range ss.length).map (fun v => (inDeg0 ss v : Int)),
     sortByName ss ((List.range ss.length).filter (fun v => inDeg0 ss v = 0)),
     (ss.length : Int), []⟩).batches

/-! ## C2: conflict freedom inside every batch -/

/-- Relation recorded by greedy packing: the later-admitted system was
checked against the earlier one. -/
def PackOK (ss : List Sys) (a b : Nat) : Prop := conflictAt ss b a = false

lemma packStep_all_of_admitted (ss : List Sys) (acc : List Nat × List Nat)
    (i : Nat) :
    (packStep ss acc i).1 = acc.1 ++ [i] ∧
      (∀ j ∈ acc.1, conflictAt ss i j = false) ∨
    (packStep ss acc i).1 = acc.1 := by
  unfold packStep
  by_cases hc : acc.1.all (fun j => !(conflictAt ss i j))
  · left
    refine ⟨by rw [if_pos hc], ?_⟩
    intro j hj
    have := List.all_eq_true.mp hc j hj
    simpa using this
  · right
    rw [if_neg hc]

lemma greedy_fold_pairwise (ss : List Sys) (cur : List Nat) :
    ∀ acc : List Nat × List Nat, List.Pairwise (PackOK ss) acc.1 →
      List.Pairwise (PackOK ss) (cur.foldl (packStep ss) acc).1 := by
  induction cur with
  | nil => intro acc h; exact h
  | cons i rest ih =>
    intro acc h
    simp only [List.foldl]
    refine ih (packStep ss acc i) ?_
    rcases packStep_all_of_admitted ss acc i with ⟨heq, hall⟩ | heq
    · rw [heq]
      rw [List.pairwise_append]
      refine ⟨h, List.pairwise_singleton _ _, ?_⟩
      intro a ha b hb
      rw [List.mem_singleton] at hb
      subst hb
      exact hall a ha
    · rw [heq]; exact h

lemma greedyPack_pairwise (ss : List Sys) (cur : List Nat) :
    List.Pairwise (PackOK ss) (greedyPack ss cur).1 :=
  greedy_fold_pairwise ss cur ([], []) (List.Pairwise.nil)

/-- Batch property preserved along the inner loop: every emitted batch
is a greedy pack, hence pairwise checked. -/
lemma innerLoop_batches_pairwise (ss : List Sys) (st : BatchState)
    (h : ∀ b ∈ st.batches, List.Pairwise (PackOK ss) b) :
    ∀ b ∈ (innerLoop ss st).batches, List.Pairwise (PackOK ss) b := by
  generalize hμ : st.ready.length + toNatSum st.inDeg = m
  induction m using Nat.strong_induction_on generalizing st with
  | _ m ih =>
    unfold innerLoop
    split
    · exact h
    · rename_i b0 brest hb
      have hm := emitStep_measure ss st.inDeg (b0 :: brest)
      have hsz := greedyPack_sizes ss st.ready
      have hb1 : (greedyPack ss st.ready).1.length = brest.length + 1 := by
        rw [hb]; rfl
      have hnr : (nextReady ss (emitStep ss st.inDeg (b0 :: brest)).1
          (greedyPack ss st.ready).2 (emitStep ss st.inDeg (b0 :: brest)).2).length ≤
          (greedyPack ss st.ready).2.length +
            (emitStep ss st.inDeg (b0 :: brest)).2.length := by
        unfold nextReady
        rw [sortByName_length]
        calc _ ≤ (((greedyPack ss st.ready).2 ++
              (emitStep ss st.inDeg (b0 :: brest)).2).dedup).length :=
              List.length_filter_le _ _
          _ ≤ ((greedyPack ss st.ready).2 ++
              (emitStep ss st.inDeg (b0 :: brest)).2).length :=
              (List.dedup_sublist _).length_le
          _ = _ := List.length_append _ _
      refine ih
        ((nextReady ss (emitStep ss st.inDeg (b0 :: brest)).1
            (greedyPack ss st.ready).2
            (emitStep ss st.inDeg (b0 :: brest)).2).length +
          toNatSum (emitStep ss st.inDeg (b0 :: brest)).1)
        (by subst hμ; omega)
        ⟨(emitStep ss st.inDeg (b0 :: brest)).1,
          nextReady ss (emitStep ss st.inDeg (b0 :: brest)).1
            (greedyPack ss st.ready).2 (emitStep ss st.inDeg (b0 :: brest)).2,
          st.remaining - (b0 :: brest).length, st.batches ++ [b0 :: brest]⟩
        ?_ rfl
      intro b hbmem
      rcases List.mem_append.mp hbmem with hold | hnew
      · exact h b hold
      · rw [List.mem_singleton] at hnew
        subst hnew
        rw [← hb]
        exact greedyPack_pairwise ss st.ready

/-- Batch property preserved along the outer loop, through the stall
path as well. -/
lemma outerLoop_batches_pairwise (ss : List Sys) (st : BatchState)
    (h : ∀ b ∈ st.batches, List.Pairwise (PackOK ss) b) :
    ∀ b ∈ (outerLoop ss st).batches, List.Pairwise (PackOK ss) b := by
  generalize hμ : st.remaining.toNat = m
  induction m using Nat.strong_induction_on generalizing st with
  | _ m ih =>
    unfold outerLoop
    split
    · exact h
    · rename_i h0
      split
      · rename_i hr
        split
        · exact h
        · rename_i x hx
          have hlt := innerLoop_remaining_lt ss { st with ready := [x] } (by simp)
          refine ih (innerLoop ss { st with ready := [x] }).remaining.toNat
            (by simp only at hlt; omega) _ ?_ rfl
          exact innerLoop_batches_pairwise ss { st with ready := [x] } h
      · rename_i r0 rrest hr
        have hlt := innerLoop_remaining_lt ss st (by rw [hr]; simp)
        refine ih (innerLoop ss st).remaining.toNat (by omega) _ ?_ rfl
        exact innerLoop_batches_pairwise ss st h

lemma accessAt_prepared (idx : Nat → Nat) (ss : List Sys)
    (hprep : ∀ s ∈ ss, Prepared idx s.access) (i : Nat) :
    Prepared idx (accessAt ss i) := by
  unfold accessAt
  cases hg : ss.get? i with
  | none => rfl
  | some s => exact hprep s (List.get?_mem hg)

/-- C2 (conflict freedom in batches).  For every per-stage system list
whose access descriptors were prepared by PrepareSets (as AddSystem
does), every batch produced by computeBatches — including batches coming
out of the defensive stall-recovery path, since no acyclicity is assumed
here — contains no two distinct systems whose descriptors conflict, in
either orientation. -/
theorem C2_batches_conflict_free (idx : Nat → Nat)
    (hinj : Function.Injective idx) (ss : List Sys)
    (hprep : ∀ s ∈ ss, Prepared idx s.access) :
    ∀ b ∈ computeBatches ss, ∀ i ∈ b, ∀ j ∈ b, i ≠ j →
      Conflicts (accessAt ss i) (accessAt ss j) = false := by
  intro b hb i hi j hj hij
  have hpair : List.Pairwise (PackOK ss) b := by
    refine outerLoop_batches_pairwise ss _ ?_ b hb
    intro b2 hb2
    simp at hb2
  have hsymmRel : Symmetric (fun i j : Nat => conflictAt ss i j = false) := by
    intro x y hxy
    have hsym := conflicts_symm idx hinj (accessAt ss x) (accessAt ss y)
      (accessAt_prepared idx ss hprep x) (accessAt_prepared idx ss hprep y)
    unfold conflictAt at hxy ⊢
    rw [← hsym]
    exact hxy
  have hpair2 : List.Pairwise (fun i j : Nat => conflictAt ss i j = false) b := by
    refine hpair.imp ?_
    intro a c hac
    exact hsymmRel hac
  exact List.Pairwise.forall hsymmRel hpair2 hi hj hij

/-- Witness for C2 at a concrete stage: two non-conflicting readers and
one conflicting writer of the same token. -/
theorem C2_batches_conflict_free_witness :
    Function.Injective (fun t : Nat => t) ∧
    (∀ s ∈ [Sys.mk "R1" "" [] [] (PrepareSets (fun t => t) (mkRaw [0] [] [] [] [] [])),
            Sys.mk "R2" "" [] [] (PrepareSets (fun t => t) (mkRaw [1] [] [] [] [] [])),
            Sys.mk "W" "" [] [] (PrepareSets (fun t => t) (mkRaw [] [0] [] [] [] []))],
      Prepared (fun t => t) s.access) ∧
    (∀ b ∈ computeBatches
        [Sys.mk "R1" "" [] [] (PrepareSets (fun t => t) (mkRaw [0] [] [] [] [] [])),
         Sys.mk "R2" "" [] [] (PrepareSets (fun t => t) (mkRaw [1] [] [] [] [] [])),
         Sys.mk "W" "" [] [] (PrepareSets (fun t => t) (mkRaw [] [0] [] [] [] []))],
      ∀ i ∈ b, ∀ j ∈ b, i ≠ j →
        Conflicts (accessAt
          [Sys.mk "R1" "" [] [] (PrepareSets (fun t => t) (mkRaw [0] [] [] [] [] [])),
           Sys.mk "R2" "" [] [] (PrepareSets (fun t => t) (mkRaw [1] [] [] [] [] [])),
           Sys.mk "W" "" [] [] (PrepareSets (fun t => t) (mkRaw [] [0] [] [] [] []))] i)
          (accessAt
          [Sys.mk "R1" "" [] [] (PrepareSets (fun t => t) (mkRaw [0] [] [] [] [] [])),
           Sys.mk "R2" "" [] [] (PrepareSets (fun t => t) (mkRaw [1] [] [] [] [] [])),
           Sys.mk "W" "" [] [] (PrepareSets (fun t => t) (mkRaw [] [0] [] [] [] []))] j)
          = false) := by
  have hinj : Function.Injective (fun t : Nat => t) := fun x y h => h
  have hprep : ∀ s ∈ [Sys.mk "R1" "" [] [] (PrepareSets (fun t => t) (mkRaw [0] [] [] [] [] [])),
            Sys.mk "R2" "" [] [] (PrepareSets (fun t => t) (mkRaw [1] [] [] [] [] [])),
            Sys.mk "W" "" [] [] (PrepareSets (fun t => t) (mkRaw [] [0] [] [] [] []))],
      Prepared (fun t => t) s.access := by
    intro s hs
    fin_cases hs <;> rfl
  exact ⟨hinj, hprep, C2_batches_conflict_free (fun t => t) hinj _ hprep⟩

/-! ## Graph-level facts used by the ordering proofs -/

lemma resolve_lt (ss : List Sys) (t : String) :
    ∀ j ∈ resolve ss t, j < ss.length := by
  intro j hj
  cases hn : nameIdx ss t with
  | some k =>
    simp only [resolve, hn, List.mem_singleton] at hj
    subst hj
    unfold nameIdx at hn
    have hmem := List.mem_of_mem_getLast? hn
    have := List.mem_filter.mp hmem
    exact List.mem_range.mp this.1
  | none =>
    simp only [resolve, hn] at hj
    unfold setIdxs at hj
    split at hj
    · simp at hj
    · have := List.mem_filter.mp hj
      exact List.mem_range.mp this.1

lemma rawEdges_lt (ss : List Sys) :
    ∀ e ∈ rawEdges ss, e.1 < ss.length ∧ e.2 < ss.length := by
  intro e he
  unfold rawEdges at he
  rw [List.mem_flatten] at he
  rcases he with ⟨l, hl, hel⟩
  rw [List.mem_map] at hl
  rcases hl with ⟨i, hi, rfl⟩
  have hilt : i < ss.length := List.mem_range.mp hi
  unfold edgesOfSys at hel
  cases hg : ss.get? i with
  | none => rw [hg] at hel; simp at hel
  | some s =>
    rw [hg] at hel
    rw [List.mem_append] at hel
    rcases hel with hb | ha
    · rw [List.mem_flatten] at hb
      rcases hb with ⟨l2, hl2, hel2⟩
      rw [List.mem_map] at hl2
      rcases hl2 with ⟨t, _, rfl⟩
      rw [List.mem_map] at hel2
      rcases hel2 with ⟨j, hj, rfl⟩
      exact ⟨hilt, resolve_lt ss t j hj⟩
    · rw [List.mem_flatten] at ha
      rcases ha with ⟨l2, hl2, hel2⟩
      rw [List.mem_map] at hl2
      rcases hl2 with ⟨d, _, rfl⟩
      rw [List.mem_map] at hel2
      rcases hel2 with ⟨j, hj, rfl⟩
      exact ⟨resolve_lt ss d j hj, hilt⟩

lemma edges_lt (ss : List Sys) :
    ∀ e ∈ edges ss, e.1 < ss.length ∧ e.2 < ss.length := by
  intro e he
  exact rawEdges_lt ss e (List.mem_dedup.mp he)

lemma edges_nodup (ss : List Sys) : (edges ss).Nodup :=
  List.nodup_dedup _

lemma mem_outNbrs (ss : List Sys) (u v : Nat) :
    v ∈ outNbrs ss u ↔ (u, v) ∈ edges ss := by
  unfold outNbrs
  rw [List.mem_map]
  constructor
  · rintro ⟨e, he, rfl⟩
    have := List.mem_filter.mp he
    have heq : e.1 = u := by simpa using this.2
    have : e = (u, e.2) := by rw [← heq]
    rw [← this]
    exact (List.mem_filter.mp he).1
  · intro h
    exact ⟨(u, v), List.mem_filter.mpr ⟨h, by simp⟩, rfl⟩

lemma outNbrs_nodup (ss : List Sys) (u : Nat) : (outNbrs ss u).Nodup := by
  unfold outNbrs
  refine List.Nodup.map_on ?_ ((edges_nodup ss).filter _)
  intro e he e2 he2 hsnd
  have h1 : e.1 = u := by simpa using (List.mem_filter.mp he).2
  have h2 : e2.1 = u := by simpa using (List.mem_filter.mp he2).2
  cases e; cases e2
  simp only at h1 h2 hsnd
  rw [h1, h2, hsnd]

/-- Number of batch members with an edge into v (the number of
decrements v receives while the batch is emitted). -/
def decCount (ss : List Sys) (batch : List Nat) (v : Nat) : Nat :=
  (batch.filter (fun s => decide ((s, v) ∈ edges ss))).length

lemma decCount_nil (ss : List Sys) (v : Nat) : decCount ss [] v = 0 := rfl

lemma decCount_cons (ss : List Sys) (s : Nat) (rest : List Nat) (v : Nat) :
    decCount ss (s :: rest) v =
      (if (s, v) ∈ edges ss then 1 else 0) + decCount ss rest v := by
  unfold decCount
  by_cases h : (s, v) ∈ edges ss <;> simp [h, List.filter_cons] <;> omega

/-- In-degree of v restricted to predecessors outside a removed set. -/
def liveInDeg (ss : List Sys) (removed : List Nat) (v : Nat) : Nat :=
  ((edges ss).filter (fun e => decide (e.2 = v) && decide (e.1 ∉ removed))).length

lemma liveInDeg_nil (ss : List Sys) (v : Nat) :
    liveInDeg ss [] v = inDeg0 ss v := by
  unfold liveInDeg inDeg0
  congr 1
  apply List.filter_congr
  intro e _
  simp

lemma length_filter_or {α : Type} (l : List α) (p q : α → Bool)
    (hdis : ∀ a ∈ l, ¬(p a = true ∧ q a = true)) :
    (l.filter (fun a => p a || q a)).length =
      (l.filter p).length + (l.filter q).length := by
  induction l with
  | nil => rfl
  | cons a rest ih =>
    have hr := ih (fun x hx => hdis x (List.mem_cons_of_mem a hx))
    have hda := hdis a (List.mem_cons_self a rest)
    by_cases hp : p a
    · by_cases hq : q a
      · exact absurd ⟨hp, hq⟩ hda
      · simp [List.filter_cons, hp, hq, hr]
        omega
    · by_cases hq : q a
      · simp [List.filter_cons, hp, hq, hr]
        omega
      · simp [List.filter_cons, hp, hq, hr]

lemma length_filter_partition {α : Type} (l : List α) (p q : α → Bool) :
    (l.filter p).length =
      (l.filter (fun a => p a && q a)).length +
      (l.filter (fun a => p a && !(q a))).length := by
  induction l with
  | nil => rfl
  | cons a rest ih =>
    by_cases hp : p a <;> by_cases hq : q a <;>
      simp [List.filter_cons, hp, hq, ih] <;> omega

lemma length_filter_eq_pair (l : List (Nat × Nat)) (hnd : l.Nodup)
    (x : Nat × Nat) :
    (l.filter (fun e => decide (e = x))).length = if x ∈ l then 1 else 0 := by
  induction l with
  | nil => simp
  | cons a rest ih =>
    have hnd2 := (List.nodup_cons.mp hnd).2
    have hna := (List.nodup_cons.mp hnd).1
    by_cases hax : a = x
    · subst hax
      have hnx : a ∉ rest := hna
      rw [if_pos (List.mem_cons_self a rest)]
      rw [List.filter_cons, if_pos (by simp)]
      have hz : (rest.filter (fun e => decide (e = a))).length = 0 := by
        rw [ih hnd2, if_neg hnx]
      simp [hz]
    · rw [List.filter_cons, if_neg (by simpa using hax)]
      rw [ih hnd2]
      have hmx : (x ∈ a :: rest) ↔ (x ∈ rest) := by
        rw [List.mem_cons]
        constructor
        · rintro (rfl | h)
          · exact absurd rfl hax
          · exact h
        · exact Or.inr
      by_cases hx : x ∈ rest <;> simp [hx, hmx]

/-- Count of deduplicated edges from the batch into v, as a sum over the
(nodup) batch members. -/
lemma edges_from_batch_count (ss : List Sys) (batch : List Nat)
    (hnd : batch.Nodup) (v : Nat) :
    ((edges ss).filter
      (fun e => decide (e.2 = v) && decide (e.1 ∈ batch))).length =
    decCount ss batch v := by
  induction batch with
  | nil => simp [List.filter, decCount]
  | cons s rest ih =>
    have hsr := (List.nodup_cons.mp hnd).1
    have hnd2 := (List.nodup_cons.mp hnd).2
    have hcong : ∀ e ∈ edges ss,
        (decide (e.2 = v) && decide (e.1 ∈ s :: rest)) =
        (decide (e = (s, v)) || (decide (e.2 = v) && decide (e.1 ∈ rest))) := by
      intro e _
      cases e with
      | mk a b =>
        by_cases hbv : b = v <;> by_cases has : a = s <;>
          by_cases har : a ∈ rest <;>
          simp [hbv, has, har, Prod.ext_iff]
    rw [List.filter_congr hcong]
    rw [length_filter_or _ _ _ ?hdis]
    case hdis =>
      intro e _
      rintro ⟨h1, h2⟩
      rw [decide_eq_true_eq] at h1
      subst h1
      simp only [Bool.and_eq_true, decide_eq_true_eq] at h2
      exact hsr h2.2
    rw [length_filter_eq_pair (edges ss) (edges_nodup ss) (s, v), ih hnd2,
      decCount_cons]

/-- Removing additionally a batch disjoint from the removed set splits
the live in-degree into the remaining part plus the batch decrements. -/
lemma liveInDeg_append (ss : List Sys) (removed batch : List Nat)
    (hndb : batch.Nodup) (v : Nat)
    (hdisj : ∀ s ∈ batch, s ∉ removed) :
    liveInDeg ss removed v =
      liveInDeg ss (removed ++ batch) v + decCount ss batch v := by
  unfold liveInDeg
  rw [length_filter_partition (edges ss)
    (fun e => decide (e.2 = v) && decide (e.1 ∉ removed))
    (fun e => decide (e.1 ∈ batch))]
  have hc1 : ∀ e ∈ edges ss,
      ((fun e => decide (e.2 = v) && decide (e.1 ∉ removed)) e &&
        !((fun e => decide (e.1 ∈ batch)) e)) =
      (decide (e.2 = v) && decide (e.1 ∉ removed ++ batch)) := by
    intro e _
    by_cases h2 : e.2 = v <;> by_cases hr : e.1 ∈ removed <;>
      by_cases hb : e.1 ∈ batch <;> simp [h2, hr, hb, List.mem_append]
  have hc2 : ∀ e ∈ edges ss,
      ((fun e => decide (e.2 = v) && decide (e.1 ∉ removed)) e &&
        ((fun e => decide (e.1 ∈ batch)) e)) =
      (decide (e.2 = v) && decide (e.1 ∈ batch)) := by
    intro e _
    by_cases h2 : e.2 = v <;> by_cases hr : e.1 ∈ removed <;>
      by_cases hb : e.1 ∈ batch <;> simp [h2, hr, hb]
    · exact absurd hr (hdisj _ hb)
  rw [List.filter_congr hc1, List.filter_congr hc2,
    edges_from_batch_count ss batch hndb v]
  omega

/-! ## Exact behaviour of neighbour processing and batch emission -/

lemma processNbrs_getD (nbrs : List Nat) :
    ∀ st : List Int × List Nat, ∀ v, v < st.1.length →
      (processNbrs st nbrs).1.getD v 0 =
        st.1.getD v 0 - (nbrs.count v : Int) := by
  induction nbrs with
  | nil => intro st v _; simp [processNbrs]
  | cons nb rest ih =>
    intro st v hv
    show (processNbrs (st.1.set nb (st.1.getD nb 0 - 1),
      if st.1.getD nb 0 - 1 = 0 then st.2 ++ [nb] else st.2) rest).1.getD v 0 = _
    rw [ih _ v (by simpa using hv)]
    by_cases hvb : v = nb
    · subst hvb
      rw [listGetD_set_self st.1 0 _ hv, List.count_cons_self]
      push_cast
      ring
    · rw [listGetD_set_ne st.1 0 _ (fun h => hvb h.symm),
        List.count_cons_of_ne hvb]

lemma processNbrs_queue_mem (nbrs : List Nat) (hnd : nbrs.Nodup) :
    ∀ st : List Int × List Nat, ∀ v,
      (v ∈ (processNbrs st nbrs).2 ↔
        v ∈ st.2 ∨ (v ∈ nbrs ∧ st.1.getD v 0 = 1)) := by
  induction nbrs with
  | nil => intro st v; simp [processNbrs]
  | cons nb rest ih =>
    intro st v
    have hnb := (List.nodup_cons.mp hnd).1
    have hnd2 := (List.nodup_cons.mp hnd).2
    show v ∈ (processNbrs (st.1.set nb (st.1.getD nb 0 - 1),
      if st.1.getD nb 0 - 1 = 0 then st.2 ++ [nb] else st.2) rest).2 ↔ _
    rw [ih hnd2]
    by_cases hvb : v = nb
    · subst hvb
      have hvr : v ∉ rest := hnb
      constructor
      · rintro (hq | ⟨hmem, _⟩)
        · by_cases hz : st.1.getD v 0 - 1 = 0
          · rw [if_pos hz] at hq
            rcases List.mem_append.mp hq with h | h
            · exact Or.inl h
            · rw [List.mem_singleton] at h
              exact Or.inr ⟨List.mem_cons_self v rest, by omega⟩
          · rw [if_neg hz] at hq
            exact Or.inl hq
        · exact absurd hmem hvr
      · rintro (hq | ⟨_, hone⟩)
        · left
          by_cases hz : st.1.getD v 0 - 1 = 0
          · rw [if_pos hz]; exact List.mem_append_left _ hq
          · rw [if_neg hz]; exact hq
        · left
          rw [if_pos (by omega)]
          exact List.mem_append_right _ (List.mem_singleton.mpr rfl)
    · rw [listGetD_set_ne st.1 0 _ (fun h => hvb h.symm)]
      constructor
      · rintro (hq | ⟨hmem, hone⟩)
        · by_cases hz : st.1.getD nb 0 - 1 = 0
          · rw [if_pos hz] at hq
            rcases List.mem_append.mp hq with h | h
            · exact Or.inl h
            · rw [List.mem_singleton] at h
              exact absurd h hvb
          · rw [if_neg hz] at hq
            exact Or.inl hq
        · exact Or.inr ⟨List.mem_cons_of_mem nb hmem, hone⟩
      · rintro (hq | ⟨hmem, hone⟩)
        · left
          by_cases hz : st.1.getD nb 0 - 1 = 0
          · rw [if_pos hz]; exact List.mem_append_left _ hq
          · rw [if_neg hz]; exact hq
        · rcases List.mem_cons.mp hmem with h | h
          · exact absurd h hvb
          · exact Or.inr ⟨h, hone⟩

lemma count_outNbrs (ss : List Sys) (s v : Nat) :
    (outNbrs ss s).count v = if (s, v) ∈ edges ss then 1 else 0 := by
  by_cases h : (s, v) ∈ edges ss
  · rw [if_pos h]
    exact List.count_eq_one_of_mem (outNbrs_nodup ss s)
      ((mem_outNbrs ss s v).mpr h)
  · rw [if_neg h]
    exact List.count_eq_zero.mpr (fun hc => h ((mem_outNbrs ss s v).mp hc))

lemma emitOne_length (ss : List Sys) (st : List Int × List Nat) (s : Nat) :
    (emitOne ss st s).1.length = st.1.length := by
  unfold emitOne
  rw [List.length_set]
  exact processNbrs_length st (outNbrs ss s)

lemma emitOne_getD_ne (ss : List Sys) (st : List Int × List Nat) (s v : Nat)
    (hv : v < st.1.length) (hne : v ≠ s) :
    (emitOne ss st s).1.getD v 0 =
      st.1.getD v 0 - (if (s, v) ∈ edges ss then 1 else 0) := by
  unfold emitOne
  rw [listGetD_set_ne _ 0 _ (fun h => hne h.symm)]
  rw [processNbrs_getD (outNbrs ss s) st v hv, count_outNbrs]
  by_cases h : (s, v) ∈ edges ss <;> simp [h]

lemma emitOne_getD_self (ss : List Sys) (st : List Int × List Nat) (s : Nat)
    (hs : s < st.1.length) :
    (emitOne ss st s).1.getD s 0 = -1 := by
  unfold emitOne
  rw [listGetD_set_self]
  rw [processNbrs_length]
  exact hs

lemma emitOne_queue_mem (ss : List Sys) (st : List Int × List Nat) (s v : Nat) :
    v ∈ (emitOne ss st s).2 ↔
      v ∈ st.2 ∨ ((s, v) ∈ edges ss ∧ st.1.getD v 0 = 1) := by
  unfold emitOne
  rw [processNbrs_queue_mem (outNbrs ss s) (outNbrs_nodup ss s) st v,
    mem_outNbrs]

lemma decCount_eq_zero (ss : List Sys) (l : List Nat) (v : Nat)
    (h : ∀ t ∈ l, (t, v) ∉ edges ss) : decCount ss l v = 0 := by
  unfold decCount
  rw [List.length_eq_zero]
  rw [List.filter_eq_nil]
  intro t ht
  simp [h t ht]

/-- Exact effect of emitting one batch, assuming no edges between batch
members: every batch slot ends at -1, every other slot loses exactly its
batch decrements, and (under the sanity bound that holds on reachable
states) the newly-ready queue collects exactly the slots that were
driven from a positive value to zero. -/
lemma emit_fold_char (ss : List Sys) (batch : List Nat) (hnd : batch.Nodup)
    (hnoe : ∀ s ∈ batch, ∀ t ∈ batch, (s, t) ∉ edges ss) :
    ∀ st : List Int × List Nat,
      (∀ s ∈ batch, s < st.1.length) →
      (∀ v, v < st.1.length →
        (batch.foldl (emitOne ss) st).1.getD v 0 =
          if v ∈ batch then -1
          else st.1.getD v 0 - (decCount ss batch v : Int)) ∧
      (∀ v, v < st.1.length → v ∉ batch →
        (st.1.getD v 0 < 0 ∨ (decCount ss batch v : Int) ≤ st.1.getD v 0) →
        (v ∈ (batch.foldl (emitOne ss) st).2 ↔
          v ∈ st.2 ∨ (1 ≤ decCount ss batch v ∧
            st.1.getD v 0 = (decCount ss batch v : Int)))) := by
  induction batch with
  | nil =>
    intro st _
    constructor
    · intro v _
      simp [decCount]
    · intro v _ _ _
      simp [decCount]
  | cons s rest ihb =>
    intro st hlt
    have hsr : s ∉ rest := (List.nodup_cons.mp hnd).1
    have hnd2 : rest.Nodup := (List.nodup_cons.mp hnd).2
    have hnoe2 : ∀ a ∈ rest, ∀ t ∈ rest, (a, t) ∉ edges ss := fun a ha t ht =>
      hnoe a (List.mem_cons_of_mem s ha) t (List.mem_cons_of_mem s ht)
    have hslen : s < st.1.length := hlt s (List.mem_cons_self s rest)
    have hlen2 : (emitOne ss st s).1.length = st.1.length :=
      emitOne_length ss st s
    have hlt2 : ∀ a ∈ rest, a < (emitOne ss st s).1.length := by
      intro a ha
      rw [hlen2]
      exact hlt a (List.mem_cons_of_mem s ha)
    have ih := ihb hnd2 hnoe2 (emitOne ss st s) hlt2
    constructor
    · intro v hv
      have hv2 : v < (emitOne ss st s).1.length := by rw [hlen2]; exact hv
      rw [List.foldl_cons, ih.1 v hv2]
      by_cases hvs : v = s
      · subst hvs
        have hvr : v ∉ rest := hsr
        rw [if_neg hvr, if_pos (List.mem_cons_self v rest)]
        rw [emitOne_getD_self ss st v hslen]
        rw [decCount_eq_zero ss rest v (fun t ht =>
          hnoe t (List.mem_cons_of_mem v ht) v (List.mem_cons_self v rest))]
        simp
      · by_cases hvr : v ∈ rest
        · rw [if_pos hvr, if_pos (List.mem_cons_of_mem s hvr)]
        · rw [if_neg hvr, if_neg (by
            rw [List.mem_cons]
            rintro (h | h)
            · exact hvs h
            · exact hvr h)]
          rw [emitOne_getD_ne ss st s v hv hvs, decCount_cons]
          push_cast
          ring
    · intro v hv hvb hsane
      have hv2 : v < (emitOne ss st s).1.length := by rw [hlen2]; exact hv
      have hvs : v ≠ s := fun h => hvb (h ▸ List.mem_cons_self s rest)
      have hvr : v ∉ rest := fun h => hvb (List.mem_cons_of_mem s h)
      have hgd : (emitOne ss st s).1.getD v 0 =
          st.1.getD v 0 - (if (s, v) ∈ edges ss then 1 else 0) :=
        emitOne_getD_ne ss st s v hv hvs
      have hdc : decCount ss (s :: rest) v =
          (if (s, v) ∈ edges ss then 1 else 0) + decCount ss rest v :=
        decCount_cons ss s rest v
      rw [hdc] at hsane
      have hsane2 : (emitOne ss st s).1.getD v 0 < 0 ∨
          (decCount ss rest v : Int) ≤ (emitOne ss st s).1.getD v 0 := by
        rw [hgd]
        by_cases he : (s, v) ∈ edges ss
        · rw [if_pos he]
          rw [if_pos he] at hsane
          push_cast at hsane
          omega
        · rw [if_neg he]
          rw [if_neg he] at hsane
          push_cast at hsane
          omega
      rw [List.foldl_cons, ih.2 v hv2 hvr hsane2]
      rw [emitOne_queue_mem ss st s v, hgd]
      by_cases he : (s, v) ∈ edges ss
      · have hDC : (decCount ss (s :: rest) v : Int) =
            1 + (decCount ss rest v : Int) := by
          rw [hdc, if_pos he]
          push_cast
          ring
        have hge1 : 1 ≤ decCount ss (s :: rest) v := by
          rw [hdc, if_pos he]
          omega
        have hsaneA : st.1.getD v 0 < 0 ∨
            1 + (decCount ss rest v : Int) ≤ st.1.getD v 0 := by
          rcases hsane with h | h
          · exact Or.inl h
          · right
            rw [if_pos he] at h
            push_cast at h
            omega
        rw [if_pos he]
        by_cases hA : v ∈ st.2
        · simp only [hA, true_or, or_true, true_iff, iff_true]
        · simp only [hA, false_or, he, true_and]
          constructor
          · rintro (h | ⟨h1, h2⟩)
            · refine ⟨hge1, ?_⟩
              rw [hDC]
              rcases hsaneA with h2 | h2 <;> omega
            · refine ⟨hge1, ?_⟩
              rw [hDC]
              omega
          · rintro ⟨h1, h2⟩
            rw [hDC] at h2
            by_cases hz : 1 ≤ decCount ss rest v
            · right
              exact ⟨hz, by omega⟩
            · left
              omega
      · have hDC : (decCount ss (s :: rest) v : Int) =
            (decCount ss rest v : Int) := by
          rw [hdc, if_neg he]
          push_cast
          ring
        have hge : decCount ss (s :: rest) v = decCount ss rest v := by
          rw [hdc, if_neg he]
          omega
        rw [if_neg he]
        by_cases hA : v ∈ st.2
        · simp only [hA, true_or, or_true, true_iff, iff_true]
        · simp only [hA, false_or, he, false_and, or_false, hge]
          constructor
          · rintro ⟨h1, h2⟩
            exact ⟨h1, by omega⟩
          · rintro ⟨h1, h2⟩
            exact ⟨h1, by omega⟩

/-! ## Batch-loop invariant -/

lemma liveInDeg_pos (ss : List Sys) (removed : List Nat) (u v : Nat)
    (he : (u, v) ∈ edges ss) (hu : u ∉ removed) :
    1 ≤ liveInDeg ss removed v := by
  unfold liveInDeg
  have hmem : (u, v) ∈ (edges ss).filter
      (fun e => decide (e.2 = v) && decide (e.1 ∉ removed)) := by
    rw [List.mem_filter]
    exact ⟨he, by simp [hu]⟩
  exact List.length_pos.mpr (fun hnil => by rw [hnil] at hmem; simp at hmem)

lemma emitStep_length (ss : List Sys) (inDeg : List Int) (batch : List Nat) :
    (emitStep ss inDeg batch).1.length = inDeg.length := by
  suffices h : ∀ st : List Int × List Nat,
      (batch.foldl (emitOne ss) st).1.length = st.1.length by
    exact h (inDeg, [])
  induction batch with
  | nil => intro st; rfl
  | cons s rest ih =>
    intro st
    rw [List.foldl_cons, ih (emitOne ss st s), emitOne_length]

lemma processNbrs_queue_subset (nbrs : List Nat) :
    ∀ st : List Int × List Nat, ∀ v, v ∈ (processNbrs st nbrs).2 →
      v ∈ st.2 ∨ v ∈ nbrs := by
  induction nbrs with
  | nil => intro st v h; exact Or.inl h
  | cons nb rest ih =>
    intro st v h
    rcases ih _ v h with hq | hr
    · by_cases hz : st.1.getD nb 0 - 1 = 0
      · simp only [hz, if_pos] at hq
        rcases List.mem_append.mp hq with h2 | h2
        · exact Or.inl h2
        · rw [List.mem_singleton] at h2
          exact Or.inr (h2 ▸ List.mem_cons_self nb rest)
      · simp only [hz, if_neg, not_false_iff] at hq
        exact Or.inl hq
    · exact Or.inr (List.mem_cons_of_mem nb hr)

lemma emitStep_queue_source (ss : List Sys) (batch : List Nat) :
    ∀ st : List Int × List Nat, ∀ v, v ∈ (batch.foldl (emitOne ss) st).2 →
      v ∈ st.2 ∨ ∃ s ∈ batch, (s, v) ∈ edges ss := by
  induction batch with
  | nil => intro st v h; exact Or.inl h
  | cons s rest ih =>
    intro st v h
    rcases ih (emitOne ss st s) v h with hq | ⟨t, ht, hedge⟩
    · rcases processNbrs_queue_subset (outNbrs ss s) st v hq with h2 | h2
      · exact Or.inl h2
      · exact Or.inr ⟨s, List.mem_cons_self s rest,
          (mem_outNbrs ss s v).mp h2⟩
    · exact Or.inr ⟨t, List.mem_cons_of_mem s ht, hedge⟩

lemma listGetD_append_left {α : Type} (l1 l2 : List α) (d : α) {i : Nat}
    (h : i < l1.length) : (l1 ++ l2).getD i d = l1.getD i d := by
  induction l1 generalizing i with
  | nil => simp at h
  | cons a rest ih =>
    cases i with
    | zero => rfl
    | succ i =>
      simp only [List.cons_append, List.getD_cons_succ]
      exact ih (by simpa using h)

lemma listGetD_append_self {α : Type} (l1 : List α) (b d : α) :
    (l1 ++ [b]).getD l1.length d = b := by
  induction l1 with
  | nil => rfl
  | cons a rest ih =>
    simpa [List.getD_cons_succ] using ih

lemma mem_flatten_getD {α : Type} (L : List (List α)) (v : α)
    (h : v ∈ L.flatten) : ∃ j < L.length, v ∈ L.getD j [] := by
  induction L with
  | nil => simp at h
  | cons l rest ih =>
    rw [List.flatten_cons, List.mem_append] at h
    rcases h with h | h
    · exact ⟨0, by simp, h⟩
    · rcases ih h with ⟨j, hj, hmem⟩
      exact ⟨j + 1, by simpa using hj, hmem⟩

lemma greedyPack_fold_perm (ss : List Sys) (cur : List Nat) :
    ∀ acc : List Nat × List Nat,
      ((cur.foldl (packStep ss) acc).1 ++ (cur.foldl (packStep ss) acc).2).Perm
        ((acc.1 ++ acc.2) ++ cur) := by
  induction cur with
  | nil => intro acc; simp
  | cons i rest ih =>
    intro acc
    rw [List.foldl_cons]
    have hstep : ((packStep ss acc i).1 ++ (packStep ss acc i).2).Perm
        ((acc.1 ++ acc.2) ++ [i]) := by
      unfold packStep
      split
      · show ((acc.1 ++ [i]) ++ acc.2).Perm _
        rw [List.append_assoc, List.append_assoc]
        exact List.Perm.append_left acc.1 List.perm_append_comm
      · show (acc.1 ++ (acc.2 ++ [i])).Perm _
        rw [List.append_assoc]
    have hlast : (((acc.1 ++ acc.2) ++ [i]) ++ rest).Perm
        ((acc.1 ++ acc.2) ++ (i :: rest)) := by
      rw [List.append_assoc]
      exact List.Perm.refl _
    exact (ih (packStep ss acc i)).trans
      ((hstep.append_right rest).trans hlast)

/-- Invariant of the batch-planning loops: in-degree slots of removed
(already batched) systems are negative, live slots hold the count of
edges from still-unbatched predecessors, the ready list is exactly the
live zero-in-degree systems, the remaining counter tracks the unbatched
count, and every edge into an already-batched system comes from a
strictly earlier batch. -/
structure BInv (ss : List Sys) (st : BatchState) : Prop where
  hlen : st.inDeg.length = ss.length
  hemlt : ∀ v ∈ st.batches.flatten, v < ss.length
  hemnd : st.batches.flatten.Nodup
  hdegEm : ∀ v ∈ st.batches.flatten, st.inDeg.getD v 0 < 0
  hdegLive : ∀ v, v < ss.length → v ∉ st.batches.flatten →
    st.inDeg.getD v 0 = (liveInDeg ss st.batches.flatten v : Int)
  hreadyIff : ∀ v, v ∈ st.ready ↔
    (v < ss.length ∧ v ∉ st.batches.flatten ∧ st.inDeg.getD v 0 = 0)
  hreadyNd : st.ready.Nodup
  hrem : st.remaining = (ss.length : Int) - st.batches.flatten.length
  horder : ∀ u v, (u, v) ∈ edges ss → ∀ jv, jv < st.batches.length →
    v ∈ st.batches.getD jv [] → ∃ ju, ju < jv ∧ u ∈ st.batches.getD ju []

lemma batch_step_BInv (ss : List Sys) (st : BatchState) (inv : BInv ss st)
    (b0 : Nat) (brest : List Nat)
    (hb : (greedyPack ss st.ready).1 = b0 :: brest) :
    BInv ss ⟨(emitStep ss st.inDeg (b0 :: brest)).1,
      nextReady ss (emitStep ss st.inDeg (b0 :: brest)).1
        (greedyPack ss st.ready).2 (emitStep ss st.inDeg (b0 :: brest)).2,
      st.remaining - (b0 :: brest).length,
      st.batches ++ [b0 :: brest]⟩ := by
  have hperm : ((b0 :: brest) ++ (greedyPack ss st.ready).2).Perm st.ready := by
    have h := greedyPack_fold_perm ss st.ready ([], [])
    rw [show st.ready.foldl (packStep ss) ([], []) = greedyPack ss st.ready
      from rfl, hb] at h
    simpa using h
  have hndall : ((b0 :: brest) ++ (greedyPack ss st.ready).2).Nodup :=
    hperm.nodup_iff.mpr inv.hreadyNd
  have hndB : (b0 :: brest).Nodup := (List.nodup_append.mp hndall).1
  have hndU : (greedyPack ss st.ready).2.Nodup := (List.nodup_append.mp hndall).2.1
  have hdisjBU : ∀ x ∈ (b0 :: brest), x ∉ (greedyPack ss st.ready).2 :=
    fun x hx => (List.nodup_append.mp hndall).2.2 hx
  have hBready : ∀ x ∈ (b0 :: brest), x ∈ st.ready :=
    fun x hx => hperm.subset (List.mem_append_left _ hx)
  have hUready : ∀ x ∈ (greedyPack ss st.ready).2, x ∈ st.ready :=
    fun x hx => hperm.subset (List.mem_append_right _ hx)
  have hBprops : ∀ x ∈ (b0 :: brest),
      x < ss.length ∧ x ∉ st.batches.flatten ∧ st.inDeg.getD x 0 = 0 :=
    fun x hx => (inv.hreadyIff x).mp (hBready x hx)
  have hnoe : ∀ s ∈ (b0 :: brest), ∀ t ∈ (b0 :: brest), (s, t) ∉ edges ss := by
    intro s hs t ht hedge
    have hts := hBprops t ht
    have hss := hBprops s hs
    have hlive := inv.hdegLive t hts.1 hts.2.1
    have hpos := liveInDeg_pos ss st.batches.flatten s t hedge hss.2.1
    rw [hts.2.2] at hlive
    omega
  have hlenB : ∀ s ∈ (b0 :: brest), s < (st.inDeg, ([] : List Nat)).1.length := by
    intro s hs
    have := (hBprops s hs).1
    simpa [inv.hlen] using this
  have hEM := emit_fold_char ss (b0 :: brest) hndB hnoe (st.inDeg, []) hlenB
  have hEM1 : ∀ v, v < st.inDeg.length →
      (emitStep ss st.inDeg (b0 :: brest)).1.getD v 0 =
        if v ∈ (b0 :: brest) then -1
        else st.inDeg.getD v 0 - (decCount ss (b0 :: brest) v : Int) :=
    fun v hv => hEM.1 v hv
  have hEM2 : ∀ v, v < st.inDeg.length → v ∉ (b0 :: brest) →
      (st.inDeg.getD v 0 < 0 ∨
        (decCount ss (b0 :: brest) v : Int) ≤ st.inDeg.getD v 0) →
      (v ∈ (emitStep ss st.inDeg (b0 :: brest)).2 ↔
        (1 ≤ decCount ss (b0 :: brest) v ∧
          st.inDeg.getD v 0 = (decCount ss (b0 :: brest) v : Int))) := by
    intro v hv hvb hs
    have := hEM.2 v hv hvb hs
    simpa using this
  have hdisjBEm : ∀ x ∈ (b0 :: brest), x ∉ st.batches.flatten :=
    fun x hx => (hBprops x hx).2.1
  have hsplit : ∀ v, liveInDeg ss st.batches.flatten v =
      liveInDeg ss (st.batches.flatten ++ (b0 :: brest)) v +
        decCount ss (b0 :: brest) v :=
    fun v => liveInDeg_append ss st.batches.flatten (b0 :: brest) hndB v hdisjBEm
  have hsane : ∀ v, v < ss.length → v ∉ (b0 :: brest) →
      (st.inDeg.getD v 0 < 0 ∨
        (decCount ss (b0 :: brest) v : Int) ≤ st.inDeg.getD v 0) := by
    intro v hv hvb
    by_cases hvem : v ∈ st.batches.flatten
    · exact Or.inl (inv.hdegEm v hvem)
    · right
      rw [inv.hdegLive v hv hvem, hsplit v]
      push_cast
      omega
  have hlen2 : (emitStep ss st.inDeg (b0 :: brest)).1.length = st.inDeg.length :=
    emitStep_length ss st.inDeg (b0 :: brest)
  have hEm2 : (st.batches ++ [b0 :: brest]).flatten =
      st.batches.flatten ++ (b0 :: brest) := by
    simp
  have hqsrc : ∀ v, v ∈ (emitStep ss st.inDeg (b0 :: brest)).2 →
      ∃ s ∈ (b0 :: brest), (s, v) ∈ edges ss := by
    intro v hvq
    rcases emitStep_queue_source ss (b0 :: brest) (st.inDeg, []) v hvq with h | h
    · simp at h
    · exact h
  -- getD characterisation of the new state at live indices, expressed once
  refine ⟨?_, ?_, ?_, ?_, ?_, ?_, ?_, ?_, ?_⟩
  · -- hlen
    simpa [inv.hlen] using hlen2
  · -- hemlt
    intro v hv
    rw [hEm2] at hv
    rcases List.mem_append.mp hv with h | h
    · exact inv.hemlt v h
    · exact (hBprops v h).1
  · -- hemnd
    rw [hEm2]
    rw [List.nodup_append]
    exact ⟨inv.hemnd, hndB, fun x hx hx2 => hdisjBEm x hx2 hx⟩
  · -- hdegEm
    intro v hv
    rw [hEm2] at hv
    have hvlt : v < st.inDeg.length := by
      rw [inv.hlen]
      rcases List.mem_append.mp hv with h | h
      · exact inv.hemlt v h
      · exact (hBprops v h).1
    rw [hEM1 v hvlt]
    by_cases hvb : v ∈ (b0 :: brest)
    · rw [if_pos hvb]
      omega
    · rw [if_neg hvb]
      rcases List.mem_append.mp hv with h | h
      · have := inv.hdegEm v h
        omega
      · exact absurd h hvb
  · -- hdegLive
    intro v hv hvem
    rw [hEm2] at hvem
    have hvb : v ∉ (b0 :: brest) := fun h => hvem (List.mem_append_right _ h)
    have hvEm : v ∉ st.batches.flatten := fun h => hvem (List.mem_append_left _ h)
    have hvlt : v < st.inDeg.length := by rw [inv.hlen]; exact hv
    rw [hEM1 v hvlt, if_neg hvb, inv.hdegLive v hv hvEm, hEm2, hsplit v]
    push_cast
    ring
  · -- hreadyIff
    intro v
    unfold nextReady
    rw [sortByName_mem, List.mem_filter, List.mem_dedup, List.mem_append]
    rw [hEm2]
    constructor
    · rintro ⟨hmem, hdeg⟩
      rw [decide_eq_true_eq] at hdeg
      have hvlt : v < ss.length := by
        rcases hmem with h | h
        · exact ((inv.hreadyIff v).mp (hUready v h)).1
        · rcases hqsrc v h with ⟨s, _, hedge⟩
          exact (edges_lt ss _ hedge).2
      have hvlen : v < st.inDeg.length := by rw [inv.hlen]; exact hvlt
      have hvb : v ∉ (b0 :: brest) := by
        intro hvb
        rw [hEM1 v hvlen, if_pos hvb] at hdeg
        omega
      have hvEm : v ∉ st.batches.flatten := by
        intro hvEm
        rw [hEM1 v hvlen, if_neg hvb] at hdeg
        have := inv.hdegEm v hvEm
        omega
      refine ⟨hvlt, ?_, hdeg⟩
      intro hmem2
      rcases List.mem_append.mp hmem2 with h | h
      · exact hvEm h
      · exact hvb h
    · rintro ⟨hvlt, hvem, hdeg⟩
      have hvb : v ∉ (b0 :: brest) := fun h => hvem (List.mem_append_right _ h)
      have hvEm : v ∉ st.batches.flatten := fun h =>
        hvem (List.mem_append_left _ h)
      have hvlen : v < st.inDeg.length := by rw [inv.hlen]; exact hvlt
      refine ⟨?_, by rw [decide_eq_true_eq]; exact hdeg⟩
      rw [hEM1 v hvlen, if_neg hvb] at hdeg
      by_cases hdc : decCount ss (b0 :: brest) v = 0
      · left
        have hz : st.inDeg.getD v 0 = 0 := by
          rw [hdc] at hdeg
          push_cast at hdeg
          omega
        have hvready : v ∈ st.ready := (inv.hreadyIff v).mpr ⟨hvlt, hvEm, hz⟩
        rcases List.mem_append.mp (hperm.mem_iff.mpr hvready) with h | h
        · exact absurd h hvb
        · exact h
      · right
        have hgd : st.inDeg.getD v 0 = (decCount ss (b0 :: brest) v : Int) := by
          omega
        exact (hEM2 v hvlen hvb (hsane v hvlt hvb)).mpr
          ⟨by omega, hgd⟩
  · -- hreadyNd
    exact sortByName_nodup ss _ ((List.nodup_dedup _).filter _)
  · -- hrem
    rw [inv.hrem, hEm2, List.length_append]
    push_cast
    ring
  · -- horder
    intro u v hedge jv hjv hvmem
    have hlenb : (st.batches ++ [b0 :: brest]).length = st.batches.length + 1 := by
      simp
    rw [hlenb] at hjv
    by_cases hjold : jv < st.batches.length
    · rw [show (st.batches ++ [b0 :: brest]).getD jv [] =
          st.batches.getD jv [] from listGetD_append_left _ _ _ hjold] at hvmem
      rcases inv.horder u v hedge jv hjold hvmem with ⟨ju, hju, hmem⟩
      have hjuold : ju < st.batches.length := lt_trans hju hjold
      exact ⟨ju, hju, by
        rw [show (st.batches ++ [b0 :: brest]).getD ju [] =
          st.batches.getD ju [] from listGetD_append_left _ _ _ hjuold]
        exact hmem⟩
    · have hjeq : jv = st.batches.length := by omega
      subst hjeq
      rw [show (st.batches ++ [b0 :: brest]).getD st.batches.length [] =
          (b0 :: brest) from listGetD_append_self _ _ _] at hvmem
      have hvp := hBprops v hvmem
      have hlive := inv.hdegLive v hvp.1 hvp.2.1
      rw [hvp.2.2] at hlive
      have huEm : u ∈ st.batches.flatten := by
        by_contra huEm
        have := liveInDeg_pos ss st.batches.flatten u v hedge huEm
        omega
      rcases mem_flatten_getD st.batches u huEm with ⟨ju, hju, hmem⟩
      exact ⟨ju, hju, by
        rw [show (st.batches ++ [b0 :: brest]).getD ju [] =
          st.batches.getD ju [] from listGetD_append_left _ _ _ hju]
        exact hmem⟩

/-- The dependency-edge relation of a stage's system list. -/
def edgeRel (ss : List Sys) (a b : Nat) : Prop := (a, b) ∈ edges ss

/-- Acyclicity of the before/after constraint graph. -/
def Acyclic (ss : List Sys) : Prop :=
  ∀ v, ¬ Relation.TransGen (edgeRel ss) v v

/-- Reachability restricted to valid node indices. -/
def finReach (ss : List Sys) (a b : Fin ss.length) : Prop :=
  Relation.TransGen (edgeRel ss) a.val b.val

lemma acyclic_of_edges_lt (ss : List Sys) (h : ∀ e ∈ edges ss, e.1 < e.2) :
    Acyclic ss := by
  have hmono : ∀ a b : Nat, Relation.TransGen (edgeRel ss) a b → a < b := by
    intro a b htg
    induction htg with
    | single hs => exact h (_, _) hs
    | tail hab hbc ih => exact lt_trans ih (h (_, _) hbc)
  intro v hv
  exact lt_irrefl v (hmono v v hv)

lemma exists_unbatched (n : Nat) (Em : List Nat) (hnd : Em.Nodup)
    (hlt : ∀ v ∈ Em, v < n) (hlen : Em.length < n) :
    ∃ v, v < n ∧ v ∉ Em := by
  by_contra hcon
  push_neg at hcon
  have hsub : List.range n ⊆ Em := fun v hv => hcon v (List.mem_range.mp hv)
  have hsp := (List.nodup_range n).subperm hsub
  have := hsp.length_le
  simp only [List.length_range] at this
  omega

lemma live_min_exists (ss : List Sys) (hacy : Acyclic ss) (Em : List Nat)
    (hv : ∃ v, v < ss.length ∧ v ∉ Em) :
    ∃ m, m < ss.length ∧ m ∉ Em ∧ liveInDeg ss Em m = 0 := by
  haveI : IsTrans (Fin ss.length) (finReach ss) :=
    ⟨fun _ _ _ h1 h2 => Relation.TransGen.trans h1 h2⟩
  haveI : IsIrrefl (Fin ss.length) (finReach ss) :=
    ⟨fun a h => hacy a.val h⟩
  have wf := Finite.wellFounded_of_trans_of_irrefl (finReach ss)
  obtain ⟨v, hvlt, hvem⟩ := hv
  obtain ⟨m, hm, hmin⟩ := wf.has_min {a : Fin ss.length | a.val ∉ Em}
    ⟨⟨v, hvlt⟩, hvem⟩
  refine ⟨m.val, m.isLt, hm, ?_⟩
  by_contra hL
  have hpos : 0 < liveInDeg ss Em m.val := Nat.pos_of_ne_zero hL
  unfold liveInDeg at hpos
  rw [List.length_pos] at hpos
  obtain ⟨e, he⟩ := List.exists_mem_of_ne_nil _ hpos
  rw [List.mem_filter] at he
  obtain ⟨hee, hcond⟩ := he
  simp only [Bool.and_eq_true, decide_eq_true_eq] at hcond
  obtain ⟨he2, he1⟩ := hcond
  have hu : e.1 < ss.length := (edges_lt ss e hee).1
  have hedge : edgeRel ss e.1 m.val := by
    show (e.1, m.val) ∈ edges ss
    rw [← he2, Prod.mk.eta]
    exact hee
  exact hmin ⟨e.1, hu⟩ he1 (Relation.TransGen.single hedge)

/-- With an acyclic graph and systems still unbatched, some live node
has live in-degree zero, so the ready list cannot be empty: the stall
path is unreachable. -/
lemma ready_ne_nil_of_BInv (ss : List Sys) (st : BatchState)
    (hacy : Acyclic ss) (inv : BInv ss st) (hpos : 0 < st.remaining) :
    st.ready ≠ [] := by
  have hrem := inv.hrem
  have hlenE : st.batches.flatten.length < ss.length := by omega
  obtain ⟨v, hvlt, hvem⟩ := exists_unbatched ss.length st.batches.flatten
    inv.hemnd inv.hemlt hlenE
  obtain ⟨m, hmlt, hmem, hL⟩ := live_min_exists ss hacy st.batches.flatten
    ⟨v, hvlt, hvem⟩
  have hdeg : st.inDeg.getD m 0 = 0 := by
    rw [inv.hdegLive m hmlt hmem, hL]
    rfl
  exact List.ne_nil_of_mem ((inv.hreadyIff m).mpr ⟨hmlt, hmem, hdeg⟩)

lemma innerLoop_BInv (ss : List Sys) (st : BatchState) (inv : BInv ss st) :
    BInv ss (innerLoop ss st) := by
  generalize hμ : st.ready.length + toNatSum st.inDeg = m
  induction m using Nat.strong_induction_on generalizing st with
  | _ m ih =>
    unfold innerLoop
    split
    · exact inv
    · rename_i b0 brest hb
      have hm := emitStep_measure ss st.inDeg (b0 :: brest)
      have hsz := greedyPack_sizes ss st.ready
      have hb1 : (greedyPack ss st.ready).1.length = brest.length + 1 := by
        rw [hb]; rfl
      have hnr : (nextReady ss (emitStep ss st.inDeg (b0 :: brest)).1
          (greedyPack ss st.ready).2 (emitStep ss st.inDeg (b0 :: brest)).2).length ≤
          (greedyPack ss st.ready).2.length +
            (emitStep ss st.inDeg (b0 :: brest)).2.length := by
        unfold nextReady
        rw [sortByName_length]
        calc _ ≤ (((greedyPack ss st.ready).2 ++
              (emitStep ss st.inDeg (b0 :: brest)).2).dedup).length :=
              List.length_filter_le _ _
          _ ≤ ((greedyPack ss st.ready).2 ++
              (emitStep ss st.inDeg (b0 :: brest)).2).length :=
              (List.dedup_sublist _).length_le
          _ = _ := List.length_append _ _
      refine ih
        ((nextReady ss (emitStep ss st.inDeg (b0 :: brest)).1
            (greedyPack ss st.ready).2
            (emitStep ss st.inDeg (b0 :: brest)).2).length +
          toNatSum (emitStep ss st.inDeg (b0 :: brest)).1)
        (by subst hμ; omega)
        ⟨(emitStep ss st.inDeg (b0 :: brest)).1,
          nextReady ss (emitStep ss st.inDeg (b0 :: brest)).1
            (greedyPack ss st.ready).2 (emitStep ss st.inDeg (b0 :: brest)).2,
          st.remaining - (b0 :: brest).length, st.batches ++ [b0 :: brest]⟩
        ?_ rfl
      exact batch_step_BInv ss st inv b0 brest hb

lemma outerLoop_BInv (ss : List Sys) (hacy : Acyclic ss) (st : BatchState)
    (inv : BInv ss st) :
    BInv ss (outerLoop ss st) ∧ (outerLoop ss st).remaining ≤ 0 := by
  generalize hμ : st.remaining.toNat = m
  induction m using Nat.strong_induction_on generalizing st with
  | _ m ih =>
    unfold outerLoop
    split
    · rename_i h0
      exact ⟨inv, h0⟩
    · rename_i h0
      split
      · rename_i hr
        exact absurd hr (ready_ne_nil_of_BInv ss st hacy inv (by omega))
      · rename_i r0 rrest hr
        have hlt := innerLoop_remaining_lt ss st (by rw [hr]; simp)
        exact ih (innerLoop ss st).remaining.toNat (by omega) _
          (innerLoop_BInv ss st inv) rfl

lemma listGetD_map_range {α : Type} (n : Nat) (f : Nat → α) (d : α) :
    ∀ v, v < n → ((List.range n).map f).getD v d = f v := by
  induction n with
  | zero => intro v hv; omega
  | succ k ih =>
    intro v hv
    rw [List.range_succ, List.map_append]
    by_cases hvk : v < k
    · rw [listGetD_append_left _ _ _ (by simpa using hvk)]
      exact ih v hvk
    · have hveq : v = k := by omega
      subst hveq
      have hlen : ((List.range v).map f).length = v := by simp
      have hself := listGetD_append_self ((List.range v).map f) (f v) d
      rw [hlen] at hself
      rw [show List.map f [v] = [f v] from rfl]
      exact hself

lemma init_BInv (ss : List Sys) :
    BInv ss ⟨(List.range ss.length).map (fun v => (inDeg0 ss v : Int)),
      sortByName ss ((List.range ss.length).filter (fun v => inDeg0 ss v = 0)),
      (ss.length : Int), []⟩ := by
  refine ⟨by simp, ?_, ?_, ?_, ?_, ?_, ?_, ?_, ?_⟩
  · intro v hv
    simp at hv
  · simp
  · intro v hv
    simp at hv
  · intro v hv _
    rw [listGetD_map_range ss.length _ 0 v hv]
    have : liveInDeg ss ([] : List (List Nat)).flatten v = inDeg0 ss v := by
      rw [List.flatten_nil]
      exact liveInDeg_nil ss v
    rw [this]
  · intro v
    rw [sortByName_mem]
    simp only [List.mem_filter, List.mem_range, decide_eq_true_eq]
    constructor
    · rintro ⟨hvlt, hdeg⟩
      refine ⟨hvlt, by simp, ?_⟩
      rw [listGetD_map_range ss.length _ 0 v hvlt, hdeg]
      rfl
    · rintro ⟨hvlt, -, hdeg⟩
      rw [listGetD_map_range ss.length _ 0 v hvlt] at hdeg
      exact ⟨hvlt, by exact_mod_cast hdeg⟩
  · exact sortByName_nodup ss _ ((List.nodup_range _).filter _)
  · simp
  · intro u v _ jv hjv _
    simp at hjv

/-- C3 (dependency preservation and exact coverage).  For every stage
whose constraint graph is acyclic, computeBatches puts the source of
every edge in a strictly earlier batch than its target, and the batch
list covers every system position exactly once (its flattening is a
permutation of all positions, each with multiplicity one). -/
theorem C3_dependency_preservation (ss : List Sys) (hacy : Acyclic ss) :
    (∀ u v, (u, v) ∈ edges ss →
      ∀ jv, jv < (computeBatches ss).length →
        v ∈ (computeBatches ss).getD jv [] →
        ∃ ju, ju < jv ∧ u ∈ (computeBatches ss).getD ju []) ∧
    ((computeBatches ss).flatten).Perm (List.range ss.length) ∧
    (∀ v, v < ss.length → ((computeBatches ss).flatten).count v = 1) := by
  unfold computeBatches
  obtain ⟨inv, hrem0⟩ := outerLoop_BInv ss hacy _ (init_BInv ss)
  have hrem := inv.hrem
  have hlenge : ss.length ≤
      (outerLoop ss ⟨(List.range ss.length).map (fun v => (inDeg0 ss v : Int)),
        sortByName ss
          ((List.range ss.length).filter (fun v => inDeg0 ss v = 0)),
        (ss.length : Int), []⟩).batches.flatten.length := by
    omega
  have hsub : (outerLoop ss
      ⟨(List.range ss.length).map (fun v => (inDeg0 ss v : Int)),
       sortByName ss ((List.range ss.length).filter (fun v => inDeg0 ss v = 0)),
       (ss.length : Int), []⟩).batches.flatten ⊆ List.range ss.length :=
    fun v hv => List.mem_range.mpr (inv.hemlt v hv)
  have hsp := inv.hemnd.subperm hsub
  have hperm := hsp.perm_of_length_le (by simpa using hlenge)
  refine ⟨inv.horder, hperm, ?_⟩
  intro v hvlt
  exact List.count_eq_one_of_mem inv.hemnd
    (hperm.mem_iff.mpr (List.mem_range.mpr hvlt))

/-- Concrete instance of C3: a two-system stage A before B is acyclic,
and its computed batch plan covers position 0 exactly once. -/
theorem C3_dependency_preservation_witness :
    Acyclic [Sys.mk "A" "" ["B"] [] (mkRaw [] [] [] [] [] []),
             Sys.mk "B" "" [] [] (mkRaw [] [] [] [] [] [])] ∧
    ((computeBatches
        [Sys.mk "A" "" ["B"] [] (mkRaw [] [] [] [] [] []),
         Sys.mk "B" "" [] [] (mkRaw [] [] [] [] [] [])]).flatten).count 0 = 1 :=
  ⟨acyclic_of_edges_lt _ (by decide),
   (C3_dependency_preservation
      [Sys.mk "A" "" ["B"] [] (mkRaw [] [] [] [] [] []),
       Sys.mk "B" "" [] [] (mkRaw [] [] [] [] [] [])]
      (acyclic_of_edges_lt _ (by decide))).2.2 0 (by decide)⟩

/-- Position of the first occurrence of a value in a list. -/
def rankIn : List Nat → Nat → Nat
  | [], _ => 0
  | x :: xs, v => if x = v then 0 else rankIn xs v + 1

lemma rankIn_append_of_mem (l1 l2 : List Nat) (v : Nat) (h : v ∈ l1) :
    rankIn (l1 ++ l2) v = rankIn l1 v := by
  induction l1 with
  | nil => simp at h
  | cons x xs ih =>
    show rankIn (x :: (xs ++ l2)) v = rankIn (x :: xs) v
    unfold rankIn
    by_cases hx : x = v
    · rw [if_pos hx, if_pos hx]
    · rw [if_neg hx, if_neg hx]
      have hmem : v ∈ xs := by
        rcases List.mem_cons.mp h with h2 | h2
        · exact absurd h2.symm hx
        · exact h2
      rw [ih hmem]

lemma rankIn_append_self (l1 : List Nat) (v : Nat) (h : v ∉ l1) :
    rankIn (l1 ++ [v]) v = l1.length := by
  induction l1 with
  | nil => simp [rankIn]
  | cons x xs ih =>
    have hx : x ≠ v := fun he => h (he ▸ List.mem_cons_self x xs)
    show rankIn (x :: (xs ++ [v])) v = xs.length + 1
    unfold rankIn
    rw [if_neg hx, ih (fun hm => h (List.mem_cons_of_mem x hm))]

lemma rankIn_lt_length (l : List Nat) (v : Nat) (h : v ∈ l) :
    rankIn l v < l.length := by
  induction l with
  | nil => simp at h
  | cons x xs ih =>
    show (if x = v then 0 else rankIn xs v + 1) < xs.length + 1
    by_cases hx : x = v
    · rw [if_pos hx]; omega
    · rw [if_neg hx]
      have hmem : v ∈ xs := by
        rcases List.mem_cons.mp h with h2 | h2
        · exact absurd h2.symm hx
        · exact h2
      have := ih hmem
      omega

lemma acyclic_of_rank (ss : List Sys) (f : Nat → Nat)
    (h : ∀ u v, (u, v) ∈ edges ss → f u < f v) : Acyclic ss := by
  have hmono : ∀ a b : Nat, Relation.TransGen (edgeRel ss) a b → f a < f b := by
    intro a b htg
    induction htg with
    | single hs => exact h _ _ hs
    | tail hab hbc ih => exact lt_trans ih (h _ _ hbc)
  intro v hv
  exact lt_irrefl (f v) (hmono v v hv)

lemma processNbrs_queue_nodup (nbrs : List Nat) (hnd : nbrs.Nodup) :
    ∀ st : List Int × List Nat, st.2.Nodup → (∀ v ∈ st.2, v ∉ nbrs) →
      (processNbrs st nbrs).2.Nodup := by
  induction nbrs with
  | nil => intro st h _; exact h
  | cons nb rest ih =>
    intro st hqnd hdisj
    have hnb := (List.nodup_cons.mp hnd).1
    have hnd2 := (List.nodup_cons.mp hnd).2
    show (processNbrs (st.1.set nb (st.1.getD nb 0 - 1),
      if st.1.getD nb 0 - 1 = 0 then st.2 ++ [nb] else st.2) rest).2.Nodup
    apply ih hnd2
    · show (if st.1.getD nb 0 - 1 = 0 then st.2 ++ [nb] else st.2).Nodup
      by_cases hz : st.1.getD nb 0 - 1 = 0
      · rw [if_pos hz, List.nodup_append]
        refine ⟨hqnd, List.nodup_singleton _, ?_⟩
        intro x hx hx2
        rw [List.mem_singleton] at hx2
        exact hdisj x hx (hx2 ▸ List.mem_cons_self nb rest)
      · rw [if_neg hz]; exact hqnd
    · intro v hv
      have hv2 : v ∈ (if st.1.getD nb 0 - 1 = 0 then st.2 ++ [nb] else st.2) := hv
      by_cases hz : st.1.getD nb 0 - 1 = 0
      · rw [if_pos hz] at hv2
        rcases List.mem_append.mp hv2 with h2 | h2
        · exact fun hm => hdisj v h2 (List.mem_cons_of_mem nb hm)
        · rw [List.mem_singleton] at h2
          subst h2
          exact hnb
      · rw [if_neg hz] at hv2
        exact fun hm => hdisj v hv2 (List.mem_cons_of_mem nb hm)

/-- Invariant of the Kahn loop: the result holds distinct valid nodes,
every slot equals the initial in-degree minus the decrements from
emitted predecessors, emitted slots sit at zero, the queue is exactly
the unemitted zero-slot nodes, and every edge into an emitted node comes
from a node emitted strictly earlier. -/
structure TInv (ss : List Sys) (st : TopoState) : Prop where
  hlen : st.inDeg.length = ss.length
  hemlt : ∀ v ∈ st.result, v < ss.length
  hemnd : st.result.Nodup
  hdeg : ∀ v, v < ss.length →
    st.inDeg.getD v 0 = (inDeg0 ss v : Int) - decCount ss st.result v
  hdegEm : ∀ v ∈ st.result, st.inDeg.getD v 0 = 0
  hqueue : ∀ v, v ∈ st.queue ↔
    (v < ss.length ∧ v ∉ st.result ∧ st.inDeg.getD v 0 = 0)
  hqnd : st.queue.Nodup
  horder : ∀ u v, (u, v) ∈ edges ss → v ∈ st.result →
    u ∈ st.result ∧ rankIn st.result u < rankIn st.result v

lemma topo_slot_live (ss : List Sys) (st : TopoState) (inv : TInv ss st)
    (v : Nat) (hv : v < ss.length) :
    st.inDeg.getD v 0 = (liveInDeg ss st.result v : Int) := by
  rw [inv.hdeg v hv]
  have h := liveInDeg_append ss [] st.result inv.hemnd v
    (fun s _ => List.not_mem_nil s)
  rw [liveInDeg_nil, List.nil_append] at h
  omega

lemma topo_step_TInv (ss : List Sys) (st : TopoState) (inv : TInv ss st)
    (cur : Nat) (rest : List Nat) (hq : st.queue = cur :: rest) :
    TInv ss ⟨(processNbrs (st.inDeg, rest) (outNbrs ss cur)).1,
             sortByName ss (processNbrs (st.inDeg, rest) (outNbrs ss cur)).2,
             st.result ++ [cur]⟩ := by
  have hcurq : cur ∈ st.queue := by rw [hq]; exact List.mem_cons_self cur rest
  have hcur := (inv.hqueue cur).mp hcurq
  have hcurrest : cur ∉ rest := by
    have := inv.hqnd
    rw [hq] at this
    exact (List.nodup_cons.mp this).1
  have hrestnd : rest.Nodup := by
    have := inv.hqnd
    rw [hq] at this
    exact (List.nodup_cons.mp this).2
  have hnoedge0 : ∀ v, v < ss.length → st.inDeg.getD v 0 = 0 →
      (cur, v) ∉ edges ss := by
    intro v hv h0 hedge
    have hs := topo_slot_live ss st inv v hv
    have hpos := liveInDeg_pos ss st.result cur v hedge hcur.2.1
    omega
  have huEm : ∀ u, (u, cur) ∈ edges ss → u ∈ st.result := by
    intro u hedge
    by_contra hu
    have hpos := liveInDeg_pos ss st.result u cur hedge hu
    have hs := topo_slot_live ss st inv cur hcur.1
    rw [hcur.2.2] at hs
    omega
  have hdeg2 : ∀ v, v < ss.length →
      (processNbrs (st.inDeg, rest) (outNbrs ss cur)).1.getD v 0 =
        st.inDeg.getD v 0 - (if (cur, v) ∈ edges ss then 1 else 0) := by
    intro v hv
    have h : (processNbrs (st.inDeg, rest) (outNbrs ss cur)).1.getD v 0 =
        st.inDeg.getD v 0 - ((outNbrs ss cur).count v : Int) :=
      processNbrs_getD (outNbrs ss cur) (st.inDeg, rest) v
        (by show v < st.inDeg.length; rw [inv.hlen]; exact hv)
    rw [count_outNbrs] at h
    rw [h]
    by_cases hc : (cur, v) ∈ edges ss <;> simp [hc]
  have hqm : ∀ v, v ∈ (processNbrs (st.inDeg, rest) (outNbrs ss cur)).2 ↔
      v ∈ rest ∨ ((cur, v) ∈ edges ss ∧ st.inDeg.getD v 0 = 1) := by
    intro v
    have h : v ∈ (processNbrs (st.inDeg, rest) (outNbrs ss cur)).2 ↔
        v ∈ rest ∨ (v ∈ outNbrs ss cur ∧ st.inDeg.getD v 0 = 1) :=
      processNbrs_queue_mem (outNbrs ss cur) (outNbrs_nodup ss cur)
        (st.inDeg, rest) v
    rw [mem_outNbrs] at h
    exact h
  have hdcapp : ∀ v, decCount ss (st.result ++ [cur]) v =
      decCount ss st.result v + (if (cur, v) ∈ edges ss then 1 else 0) := by
    intro v
    unfold decCount
    rw [List.filter_append, List.length_append]
    congr 1
    by_cases h : (cur, v) ∈ edges ss <;> simp [h]
  refine ⟨?_, ?_, ?_, ?_, ?_, ?_, ?_, ?_⟩
  · show (processNbrs (st.inDeg, rest) (outNbrs ss cur)).1.length = ss.length
    have h : (processNbrs (st.inDeg, rest) (outNbrs ss cur)).1.length =
        st.inDeg.length := processNbrs_length (st.inDeg, rest) (outNbrs ss cur)
    rw [h, inv.hlen]
  · intro v hv
    rcases List.mem_append.mp hv with h | h
    · exact inv.hemlt v h
    · rw [List.mem_singleton] at h
      exact h ▸ hcur.1
  · rw [List.nodup_append]
    refine ⟨inv.hemnd, List.nodup_singleton _, ?_⟩
    intro x hx hx2
    rw [List.mem_singleton] at hx2
    exact hcur.2.1 (hx2 ▸ hx)
  · intro v hv
    rw [hdeg2 v hv, inv.hdeg v hv, hdcapp v]
    by_cases h : (cur, v) ∈ edges ss <;> simp [h] <;> push_cast <;> ring
  · intro v hv
    rcases List.mem_append.mp hv with h | h
    · have hvn := inv.hemlt v h
      have h0 := inv.hdegEm v h
      rw [hdeg2 v hvn, h0, if_neg (hnoedge0 v hvn h0)]
      ring
    · rw [List.mem_singleton] at h
      subst h
      rw [hdeg2 v hcur.1, hcur.2.2, if_neg (hnoedge0 v hcur.1 hcur.2.2)]
      ring
  · intro v
    show v ∈ sortByName ss (processNbrs (st.inDeg, rest) (outNbrs ss cur)).2 ↔ _
    rw [sortByName_mem, hqm v]
    constructor
    · rintro (hvr | ⟨hedge, h1⟩)
      · have hvq : v ∈ st.queue := by
          rw [hq]; exact List.mem_cons_of_mem cur hvr
        obtain ⟨hvn, hvem, h0⟩ := (inv.hqueue v).mp hvq
        have hvcur : v ≠ cur := fun he => hcurrest (he ▸ hvr)
        refine ⟨hvn, ?_, ?_⟩
        · intro hmem
          rcases List.mem_append.mp hmem with h2 | h2
          · exact hvem h2
          · rw [List.mem_singleton] at h2
            exact hvcur h2
        · rw [hdeg2 v hvn, h0, if_neg (hnoedge0 v hvn h0)]
          ring
      · have hvn := (edges_lt ss _ hedge).2
        have hvem : v ∉ st.result := fun hmem => by
          have := inv.hdegEm v hmem
          omega
        have hvcur : v ≠ cur := fun he => by
          rw [he, hcur.2.2] at h1
          omega
        refine ⟨hvn, ?_, ?_⟩
        · intro hmem
          rcases List.mem_append.mp hmem with h2 | h2
          · exact hvem h2
          · rw [List.mem_singleton] at h2
            exact hvcur h2
        · rw [hdeg2 v hvn, h1, if_pos hedge]
          ring
    · rintro ⟨hvn, hvem, h0'⟩
      have hvem1 : v ∉ st.result := fun h2 => hvem (List.mem_append_left _ h2)
      have hvcur : v ≠ cur := fun he =>
        hvem (List.mem_append_right _ (he ▸ List.mem_singleton_self cur))
      rw [hdeg2 v hvn] at h0'
      by_cases hedge : (cur, v) ∈ edges ss
      · rw [if_pos hedge] at h0'
        exact Or.inr ⟨hedge, by omega⟩
      · rw [if_neg hedge] at h0'
        have h00 : st.inDeg.getD v 0 = 0 := by omega
        have hvq := (inv.hqueue v).mpr ⟨hvn, hvem1, h00⟩
        rw [hq] at hvq
        rcases List.mem_cons.mp hvq with h2 | h2
        · exact absurd h2 hvcur
        · exact Or.inl h2
  · apply sortByName_nodup
    apply processNbrs_queue_nodup (outNbrs ss cur) (outNbrs_nodup ss cur)
      (st.inDeg, rest) hrestnd
    intro v hvr hvnb
    have hvq : v ∈ st.queue := by
      rw [hq]; exact List.mem_cons_of_mem cur hvr
    obtain ⟨hvn, _, h0⟩ := (inv.hqueue v).mp hvq
    exact hnoedge0 v hvn h0 ((mem_outNbrs ss cur v).mp hvnb)
  · intro u v hedge hv
    rcases List.mem_append.mp hv with h | h
    · obtain ⟨hu, hr⟩ := inv.horder u v hedge h
      refine ⟨List.mem_append_left _ hu, ?_⟩
      rw [rankIn_append_of_mem _ _ _ hu, rankIn_append_of_mem _ _ _ h]
      exact hr
    · rw [List.mem_singleton] at h
      subst h
      have hu := huEm u hedge
      refine ⟨List.mem_append_left _ hu, ?_⟩
      rw [rankIn_append_of_mem _ _ _ hu, rankIn_append_self _ _ hcur.2.1]
      exact rankIn_lt_length _ _ hu

lemma topoLoop_TInv (ss : List Sys) (st : TopoState) (inv : TInv ss st) :
    TInv ss (topoLoop ss st) ∧ (topoLoop ss st).queue = [] := by
  generalize hμ : topoMeasure st = m
  induction m using Nat.strong_induction_on generalizing st with
  | _ m ih =>
    unfold topoLoop
    split
    · rename_i hq
      exact ⟨inv, hq⟩
    · rename_i cur rest hq
      have hm := processNbrs_measure (st.inDeg, rest) (outNbrs ss cur)
      dsimp only at hm
      have hq1 : st.queue.length = rest.length + 1 := by rw [hq]; rfl
      refine ih (topoMeasure
          ⟨(processNbrs (st.inDeg, rest) (outNbrs ss cur)).1,
           sortByName ss (processNbrs (st.inDeg, rest) (outNbrs ss cur)).2,
           st.result ++ [cur]⟩)
        (by subst hμ
            dsimp only [topoMeasure]
            rw [sortByName_length]
            omega)
        ⟨(processNbrs (st.inDeg, rest) (outNbrs ss cur)).1,
           sortByName ss (processNbrs (st.inDeg, rest) (outNbrs ss cur)).2,
           st.result ++ [cur]⟩
        (topo_step_TInv ss st inv cur rest hq) rfl

lemma topoInit_TInv (ss : List Sys) : TInv ss (topoInit ss) := by
  refine ⟨by simp [topoInit], ?_, ?_, ?_, ?_, ?_, ?_, ?_⟩
  · intro v hv
    simp [topoInit] at hv
  · simp [topoInit]
  · intro v hv
    show ((List.range ss.length).map (fun v => (inDeg0 ss v : Int))).getD v 0 =
      (inDeg0 ss v : Int) - decCount ss [] v
    rw [listGetD_map_range ss.length _ 0 v hv, decCount_nil]
    ring
  · intro v hv
    simp [topoInit] at hv
  · intro v
    show v ∈ sortByName ss _ ↔ _
    rw [sortByName_mem]
    simp only [List.mem_filter, List.mem_range, decide_eq_true_eq]
    constructor
    · rintro ⟨hvlt, hdeg⟩
      refine ⟨hvlt, by simp [topoInit], ?_⟩
      show ((List.range ss.length).map (fun v => (inDeg0 ss v : Int))).getD v 0 = 0
      rw [listGetD_map_range ss.length _ 0 v hvlt, hdeg]
      rfl
    · rintro ⟨hvlt, -, hdeg⟩
      have hdeg2 : ((List.range ss.length).map
          (fun v => (inDeg0 ss v : Int))).getD v 0 = 0 := hdeg
      rw [listGetD_map_range ss.length _ 0 v hvlt] at hdeg2
      exact ⟨hvlt, by exact_mod_cast hdeg2⟩
  · exact sortByName_nodup ss _ ((List.nodup_range _).filter _)
  · intro u v _ hv
    simp [topoInit] at hv

/-- The Kahn loop emits every system exactly when the graph is acyclic. -/
lemma topo_result_length (ss : List Sys) :
    (topoLoop ss (topoInit ss)).result.length = ss.length ↔ Acyclic ss := by
  obtain ⟨inv, hqnil⟩ := topoLoop_TInv ss (topoInit ss) (topoInit_TInv ss)
  have hsub : (topoLoop ss (topoInit ss)).result ⊆ List.range ss.length :=
    fun v hv => List.mem_range.mpr (inv.hemlt v hv)
  constructor
  · intro hlen
    have hperm := (inv.hemnd.subperm hsub).perm_of_length_le
      (by simp [hlen])
    apply acyclic_of_rank ss (rankIn (topoLoop ss (topoInit ss)).result)
    intro u v hedge
    have hv : v ∈ (topoLoop ss (topoInit ss)).result :=
      hperm.mem_iff.mpr (List.mem_range.mpr (edges_lt ss _ hedge).2)
    exact (inv.horder u v hedge hv).2
  · intro hacy
    by_contra hne
    have hle := (inv.hemnd.subperm hsub).length_le
    simp only [List.length_range] at hle
    have hlt : (topoLoop ss (topoInit ss)).result.length < ss.length := by
      omega
    obtain ⟨v, hvlt, hvem⟩ := exists_unbatched ss.length
      (topoLoop ss (topoInit ss)).result inv.hemnd inv.hemlt hlt
    obtain ⟨w, hwlt, hwem, hL⟩ := live_min_exists ss hacy
      (topoLoop ss (topoInit ss)).result ⟨v, hvlt, hvem⟩
    have hdeg0 : (topoLoop ss (topoInit ss)).inDeg.getD w 0 = 0 := by
      rw [topo_slot_live ss _ inv w hwlt, hL]
      rfl
    have hwq := (inv.hqueue w).mpr ⟨hwlt, hwem, hdeg0⟩
    rw [hqnil] at hwq
    simp at hwq

/-- topologicalSort errs exactly on cyclic input, with the fixed message. -/
lemma topologicalSort_cases (ss : List Sys) :
    (¬ Acyclic ss ∧
      topologicalSort ss = Except.error "cyclic dependency detected") ∨
    (Acyclic ss ∧
      topologicalSort ss = Except.ok (topoLoop ss (topoInit ss)).result) := by
  have hshow : topologicalSort ss =
      if (topoLoop ss (topoInit ss)).result.length ≠ ss.length
      then Except.error "cyclic dependency detected"
      else Except.ok (topoLoop ss (topoInit ss)).result := rfl
  by_cases h : (topoLoop ss (topoInit ss)).result.length ≠ ss.length
  · left
    refine ⟨fun hacy => h ((topo_result_length ss).mpr hacy), ?_⟩
    rw [hshow, if_pos h]
  · right
    push_neg at h
    exact ⟨(topo_result_length ss).mp h,
      by rw [hshow, if_neg (by omega : ¬ (topoLoop ss
        (topoInit ss)).result.length ≠ ss.length)]⟩

/-- Model of Scheduler.Build over the registered stages: validate each
stage by topological sort — wrapping a failure as
"stage <id>: cyclic dependency detected" — and on success store the
computed batches of every stage. -/
def buildStages : List (Nat × List Sys) →
    Except String (List (Nat × List (List Nat)))
  | [] => Except.ok []
  | (stg, ss) :: rest =>
    match topologicalSort ss with
    | Except.error e => Except.error ("stage " ++ toString stg ++ ": " ++ e)
    | Except.ok _ =>
      match buildStages rest with
      | Except.error e => Except.error e
      | Except.ok bs => Except.ok ((stg, computeBatches ss) :: bs)

/-- C8 (build-time cycle detection).  Build fails exactly when some
registered stage's constraint graph has a cycle; any error names a
cyclic stage and carries the "cyclic dependency detected" message; on
all-acyclic input Build succeeds and stores the computed batch plan of
every registered stage. -/
theorem C8_build_cycle_detection (stages : List (Nat × List Sys)) :
    ((∃ e, buildStages stages = Except.error e) ↔
      ∃ p ∈ stages, ¬ Acyclic p.2) ∧
    (∀ e, buildStages stages = Except.error e →
      ∃ p ∈ stages, ¬ Acyclic p.2 ∧
        e = "stage " ++ toString p.1 ++ ": cyclic dependency detected") ∧
    ((∀ p ∈ stages, Acyclic p.2) →
      buildStages stages =
        Except.ok (stages.map (fun p => (p.1, computeBatches p.2)))) := by
  induction stages with
  | nil =>
    refine ⟨?_, ?_, ?_⟩
    · simp [buildStages]
    · intro e he
      simp [buildStages] at he
    · intro _
      simp [buildStages]
  | cons p rest ih =>
    obtain ⟨ih1, ih2, ih3⟩ := ih
    rcases topologicalSort_cases p.2 with ⟨hnacy, herr⟩ | ⟨hacy, hok⟩
    · have hb : buildStages (p :: rest) = Except.error
          ("stage " ++ toString p.1 ++ ": cyclic dependency detected") := by
        show (match topologicalSort p.2 with
          | Except.error e =>
            Except.error ("stage " ++ toString p.1 ++ ": " ++ e)
          | Except.ok _ =>
            match buildStages rest with
            | Except.error e => Except.error e
            | Except.ok bs =>
              Except.ok ((p.1, computeBatches p.2) :: bs)) = _
        rw [herr]
        show Except.error
          ("stage " ++ toString p.1 ++ ": " ++ "cyclic dependency detected") = _
        rw [String.append_assoc,
          show ((": " ++ "cyclic dependency detected") : String) =
            ": cyclic dependency detected" from rfl]
      refine ⟨?_, ?_, ?_⟩
      · constructor
        · intro _
          exact ⟨p, List.mem_cons_self p rest, hnacy⟩
        · intro _
          exact ⟨_, hb⟩
      · intro e he
        rw [hb] at he
        simp only [Except.error.injEq] at he
        exact ⟨p, List.mem_cons_self p rest, hnacy, he.symm⟩
      · intro hall
        exact absurd (hall p (List.mem_cons_self p rest)) hnacy
    · have hb : buildStages (p :: rest) =
          match buildStages rest with
          | Except.error e => Except.error e
          | Except.ok bs => Except.ok ((p.1, computeBatches p.2) :: bs) := by
        show (match topologicalSort p.2 with
          | Except.error e =>
            Except.error ("stage " ++ toString p.1 ++ ": " ++ e)
          | Except.ok _ =>
            match buildStages rest with
            | Except.error e => Except.error e
            | Except.ok bs =>
              Except.ok ((p.1, computeBatches p.2) :: bs)) = _
        rw [hok]
      cases hrest : buildStages rest with
      | error e =>
        have hb2 : buildStages (p :: rest) = Except.error e := by
          rw [hb, hrest]
        refine ⟨?_, ?_, ?_⟩
        · constructor
          · intro _
            obtain ⟨q, hq, hqn⟩ := ih1.mp ⟨e, hrest⟩
            exact ⟨q, List.mem_cons_of_mem p hq, hqn⟩
          · intro _
            exact ⟨e, hb2⟩
        · intro e2 he2
          rw [hb2] at he2
          simp only [Except.error.injEq] at he2
          obtain ⟨q, hq, hqn, hqe⟩ := ih2 e hrest
          exact ⟨q, List.mem_cons_of_mem p hq, hqn, by rw [← he2]; exact hqe⟩
        · intro hall
          have h3 := ih3 (fun q hq => hall q (List.mem_cons_of_mem p hq))
          rw [hrest] at h3
          simp at h3
      | ok bs =>
        have hb2 : buildStages (p :: rest) =
            Except.ok ((p.1, computeBatches p.2) :: bs) := by
          rw [hb, hrest]
        refine ⟨?_, ?_, ?_⟩
        · constructor
          · rintro ⟨e, he⟩
            rw [hb2] at he
            exact absurd he (by simp)
          · rintro ⟨q, hq, hqn⟩
            rcases List.mem_cons.mp hq with rfl | hq2
            · exact absurd hacy hqn
            · obtain ⟨e, he⟩ := ih1.mpr ⟨q, hq2, hqn⟩
              rw [he] at hrest
              simp at hrest
        · intro e2 he2
          rw [hb2] at he2
          exact absurd he2 (by simp)
        · intro hall
          have h3 := ih3 (fun q hq => hall q (List.mem_cons_of_mem p hq))
          rw [hrest] at h3
          simp only [Except.ok.injEq] at h3
          rw [hb2, List.map_cons, h3]

/-- Concrete instance of C8: a single acyclic stage builds successfully
and stores its batch plan. -/
theorem C8_build_cycle_detection_witness :
    buildStages [((3 : Nat),
        [Sys.mk "A" "" ["B"] [] (mkRaw [] [] [] [] [] []),
         Sys.mk "B" "" [] [] (mkRaw [] [] [] [] [] [])])] =
      Except.ok ([((3 : Nat),
        [Sys.mk "A" "" ["B"] [] (mkRaw [] [] [] [] [] []),
         Sys.mk "B" "" [] [] (mkRaw [] [] [] [] [] [])])].map
          (fun p => (p.1, computeBatches p.2))) :=
  (C8_build_cycle_detection [((3 : Nat),
      [Sys.mk "A" "" ["B"] [] (mkRaw [] [] [] [] [] []),
       Sys.mk "B" "" [] [] (mkRaw [] [] [] [] [] [])])]).2.2
    (fun q hq => by
      rw [List.mem_singleton] at hq
      subst hq
      exact acyclic_of_edges_lt _ (by decide))

/-! ## Scheduler: panic handling in runSystem and the worker pool
(scheduler.go lines 130-147 and 424-455) -/

/-- Diagnostics callbacks observed by a run. -/
inductive DiagEvent where
  | sysStart (name : String)
  | sysEnd (name : String) (err : Option String)
  deriving Repr, DecidableEq

/-- A system as the runner sees it: its name and whether its body
panics (with the panic value) or returns normally. -/
structure RSys where
  name : String
  panics : Option String
  deriving Repr, DecidableEq

/-- What one runSystem call produces: the diagnostics events, whether
MarkRun was reached, and the re-raised panic value if any. -/
structure RunOutcome where
  events : List DiagEvent
  markedRun : Bool
  reraised : Option String
  deriving Repr, DecidableEq

/-- Model of Scheduler.runSystem: SystemStart, run the body; the
deferred handler recovers a panic into the error
"panic: <value>\n<stack>", reports SystemEnd with it, calls MarkRun
with the end time, and re-raises the panic. -/
def runSystem (stack : String) (sys : RSys) : RunOutcome :=
  match sys.panics with
  | none =>
    ⟨[DiagEvent.sysStart sys.name, DiagEvent.sysEnd sys.name none], true, none⟩
  | some info =>
    ⟨[DiagEvent.sysStart sys.name,
      DiagEvent.sysEnd sys.name
        (some ("panic: " ++ info ++ "\n" ++ stack))], true, some info⟩

/-- State of a pool worker: the diagnostics log so far, how many times
it called the batch wait-group's Done, and the panic that escaped it. -/
structure WorkerState where
  log : List DiagEvent
  wgDone : Nat
  crashed : Option String
  deriving Repr, DecidableEq

/-- Model of the worker goroutine of Scheduler.Startup: it runs each
job then calls wg.Done — with no recover around runSystem, so the
panic runSystem re-raises escapes the loop before wg.Done, kills the
worker (and, in Go, the process), and leaves the remaining jobs
unprocessed. -/
def workerDrain (stack : String) : List RSys → WorkerState → WorkerState
  | [], st => st
  | sys :: rest, st =>
    match hr : (runSystem stack sys).reraised with
    | some info => ⟨st.log ++ (runSystem stack sys).events, st.wgDone, some info⟩
    | none =>
      workerDrain stack rest
        ⟨st.log ++ (runSystem stack sys).events, st.wgDone + 1, none⟩

/-- C7 (panic handling).  On the repository's own test input — a batch
holding PanicSys, whose body panics with "boom", and R1 — runSystem
does catch the panic, records the error "panic: boom\n<stack>",
reports it through SystemEnd, calls MarkRun, and re-raises; but the
re-raised panic escapes the pool worker before wg.Done, so the worker
dies with the batch wait-group never released: R1 is never started,
contradicting the claim that other systems in the batch still run to
completion. -/
theorem C7_panic_not_isolated :
    (runSystem "stacktrace" ⟨"PanicSys", some "boom"⟩).events =
      [DiagEvent.sysStart "PanicSys",
       DiagEvent.sysEnd "PanicSys" (some "panic: boom\nstacktrace")] ∧
    (runSystem "stacktrace" ⟨"PanicSys", some "boom"⟩).markedRun = true ∧
    (runSystem "stacktrace" ⟨"PanicSys", some "boom"⟩).reraised = some "boom" ∧
    (workerDrain "stacktrace" [⟨"PanicSys", some "boom"⟩, ⟨"R1", none⟩]
        ⟨[], 0, none⟩).crashed = some "boom" ∧
    (workerDrain "stacktrace" [⟨"PanicSys", some "boom"⟩, ⟨"R1", none⟩]
        ⟨[], 0, none⟩).wgDone = 0 ∧
    DiagEvent.sysStart "R1" ∉
      (workerDrain "stacktrace" [⟨"PanicSys", some "boom"⟩, ⟨"R1", none⟩]
        ⟨[], 0, none⟩).log := by
  refine ⟨rfl, rfl, rfl, rfl, rfl, ?_⟩
  decide

end Bevi
